import Mathlib

/-!
Shallow embedding of the multi-file video converter component
(`src/unnamed/part_000`, `VideoConverter`), and verification of the
specification's claims about it.

The component is a React function component whose observable behaviour is a
state machine over:

* `conversionState : ConversionProgress` (aggregate phase + message),
* `uploadedFiles : List FileConversion` (the per-file job list),
* `outputFormat : String` (the currently selected target format),
* `ffmpegRef` (the lazily initialised engine handle),

together with engine-external effects: the engine's virtual file system
(entries created by `writeFile` / removed by `deleteFile`), the argv lists
passed to `ffmpeg.exec`, object URLs created by `URL.createObjectURL` and
revoked by `URL.revokeObjectURL`.

The embedding models each of those explicitly in `ConverterState`.  A `File`
object is modelled by a numeric identity (reference identity, used by the
source's `fc.file === fileConversion.file` comparisons) plus its name.  Every
awaited engine operation of one `convertVideo` call may succeed or reject;
the environment's choices for one call are collected in a `ConvRun` record
(the two `Date.now()` readings and one success flag per awaited operation).
The first rejecting operation transfers control to the `catch` block, exactly
as in the source.

React closure semantics embedded here: `onDrop` and the `convertVideo` it
calls were created in the last render before the drop, so the values of
`outputFormat` and `uploadedFiles` captured by those closures are the state
values at the moment of the drop, before the new batch is appended
(`snapFormat` / `snapFiles` below).  Functional state updates
(`setUploadedFiles (prev => ...)`) read the live state and are applied to the
current state.  User actions (`step`) can only occur between drops because
the drop zone and the format radio inputs are disabled while the phase is
`loading` or `converting`.
-/

namespace Converter

/-- Aggregate phase of `ConversionProgress` (source lines 8-12). -/
inductive Phase where
  | idle | loading | converting | completed | error
deriving DecidableEq, Repr

/-- `ConversionProgress` record (source lines 8-12); `progress` is optional. -/
structure ConversionProgress where
  phase : Phase
  message : String
  progress : Option Nat
deriving DecidableEq, Repr

/-- Per-file status (source line 16). -/
inductive Status where
  | pending | converting | completed | error
deriving DecidableEq, Repr

/-- `FileConversion` record (source lines 14-20).  `file` is the reference
identity of the underlying `File` object, `fileName` its `name`. -/
structure FileConversion where
  file : Nat
  fileName : String
  status : Status
  progress : Nat
  downloadUrl : Option Nat
  error : Option String
deriving DecidableEq, Repr

/-- Complete observable state of the component plus the engine-side effects:
the engine's virtual file system `fs`, the log of argv lists passed to
`ffmpeg.exec`, the object-URL counter and the multiset of revoked URLs. -/
structure ConverterState where
  conversionState : ConversionProgress
  uploadedFiles : List FileConversion
  outputFormat : String
  ffmpegLoaded : Bool
  engineLoadCount : Nat
  fs : List String
  urlCounter : Nat
  revoked : List Nat
  execLog : List (List String)
deriving DecidableEq, Repr

/-- Initial status message (source lines 83-86). -/
def initialMessage : String := "Ready for fast video conversion"

/-- Initial component state (source lines 83-89): phase `idle`, no files,
`outputFormat` initialised to `'mp4'`, engine not yet loaded. -/
def initState : ConverterState :=
  { conversionState := { phase := .idle, message := initialMessage, progress := none }
    uploadedFiles := []
    outputFormat := "mp4"
    ffmpegLoaded := false
    engineLoadCount := 0
    fs := []
    urlCounter := 0
    revoked := []
    execLog := [] }

/-- Environment choices for one `convertVideo` call: the two `Date.now()`
readings (line 146 and line 150) and one success flag for each awaited
operation (`ffmpeg.load`, `fetchFile`+`writeFile`, `exec`, `readFile`,
`deleteFile inputName`, `deleteFile outputName`). -/
structure ConvRun where
  t1 : Nat
  t2 : Nat
  loadOk : Bool
  writeOk : Bool
  execOk : Bool
  readOk : Bool
  delInOk : Bool
  delOutOk : Bool
deriving DecidableEq, Repr

/-- A run in which every awaited operation succeeds. -/
def okRun : ConvRun :=
  { t1 := 0, t2 := 0, loadOk := true, writeOk := true, execOk := true,
    readOk := true, delInOk := true, delOutOk := true }

/-- Splitting a character list at every `'.'`, keeping empty segments, as
JavaScript's `String.prototype.split('.')` does. -/
def splitDotAux : List Char → List Char → List (List Char)
  | [], acc => [acc.reverse]
  | c :: cs, acc =>
      if c = '.' then acc.reverse :: splitDotAux cs [] else splitDotAux cs (c :: acc)

/-- `name.split('.')` (JavaScript): the `'.'`-separated segments of the
name, empty segments included. -/
def splitDot (name : String) : List String :=
  (splitDotAux name.data []).map List.asString

/-- Joining segments back with `'.'` separators. -/
def joinWithDot : List String → String
  | [] => ""
  | [p] => p
  | p :: rest => p ++ "." ++ joinWithDot rest

/-- `suffix` is a suffix of `s` (character-wise). -/
def strEndsWith (s sfx : String) : Bool :=
  sfx.data.isSuffixOf s.data

/-- `file.name.split('.').pop()` (source line 146): the last `.`-separated
segment of the name (the whole name when it has no dot). -/
def lastSegment (name : String) : String :=
  (splitDot name).getLastD ""

/-- Engine-side input entry name (source line 146):
`input_${Date.now()}.${file.name.split('.').pop()}`. -/
def inputEntryName (t1 : Nat) (fileName : String) : String :=
  "input_" ++ toString t1 ++ "." ++ lastSegment fileName

/-- Engine-side output entry name (source line 150):
`output_${Date.now()}.${outputFormat}`. -/
def outputEntryName (t2 : Nat) (fmt : String) : String :=
  "output_" ++ toString t2 ++ "." ++ fmt

/-- `args.splice(start, cnt)` viewed as the resulting array (source line
159): remove `cnt` elements beginning at index `start`. -/
def spliceRemove (l : List String) (start cnt : Nat) : List String :=
  l.take start ++ l.drop (start + cnt)

/-- The argv list passed to `ffmpeg.exec` (source lines 151-160): the base
array with the format-dependent codec value, with `args.splice(3, 2)`
applied when the target format is `gif`. -/
def buildArgs (fmt inName outName : String) : List String :=
  let args := ["-i", inName, "-c", if fmt == "gif" then "gif" else "copy",
               "-movflags", "+faststart", outName]
  if fmt == "gif" then spliceRemove args 3 2 else args

/-- Update applied by `setUploadedFiles` at source lines 131-137: the entry
whose `file` matches becomes `converting` with progress 0. -/
def updConverting (f : Nat) (fc : FileConversion) : FileConversion :=
  if fc.file == f then { fc with status := .converting, progress := 0 } else fc

/-- Update applied by `setUploadedFiles` at source lines 171-177: the entry
whose `file` matches becomes `completed` with progress 100 and the freshly
created object URL. -/
def updCompleted (f : Nat) (url : Nat) (fc : FileConversion) : FileConversion :=
  if fc.file == f then
    { fc with status := .completed, progress := 100, downloadUrl := some url }
  else fc

/-- Update applied by `setUploadedFiles` in the catch block at source lines
198-204: the entry whose `file` matches becomes `error` with the fixed
generic message; all other fields are kept by the spread. -/
def updError (f : Nat) (fc : FileConversion) : FileConversion :=
  if fc.file == f then { fc with status := .error, error := some "Conversion failed" }
  else fc

/-- The `allCompleted` check at source lines 184-186, evaluated over the
closure-captured (stale) `uploadedFiles` list. -/
def allCompleted (snapFiles : List FileConversion) (f : Nat) : Bool :=
  snapFiles.all fun fc => fc.file == f || fc.status == .completed || fc.status == .error

/-- `conversionState` set by `initializeFFmpeg` before loading (source lines
98-101); the object literal has no `progress`, so it becomes `none`. -/
def loadingCP : ConversionProgress :=
  { phase := .loading, message := "Loading FFmpeg...", progress := none }

/-- `conversionState` set at the start of a conversion (source lines
139-143). -/
def convertingCP (fileName fmt : String) : ConversionProgress :=
  { phase := .converting,
    message := "Converting " ++ fileName ++ " to ." ++ fmt ++ "...",
    progress := some 0 }

/-- `conversionState` set when the stale all-completed check passes (source
lines 188-193). -/
def completedCP : ConversionProgress :=
  { phase := .completed, message := "All conversions completed!", progress := some 100 }

/-- Body of `convertVideo` after the engine handle has been acquired
(source lines 130-205): mark the job converting, write the input entry,
exec, read the output, mark the job completed, delete the two entries, and
run the stale all-completed check; the first rejecting operation transfers
control to the catch block, which marks the job `error`. -/
def convertBody (snapFormat : String) (snapFiles : List FileConversion)
    (job : FileConversion) (r : ConvRun) (s : ConverterState) : ConverterState :=
  let s3 := { s with
    uploadedFiles := s.uploadedFiles.map (updConverting job.file),
    conversionState := convertingCP job.fileName snapFormat }
  let inName := inputEntryName r.t1 job.fileName
  if r.writeOk = false then
    { s3 with uploadedFiles := s3.uploadedFiles.map (updError job.file) }
  else
    let s4 := { s3 with fs := s3.fs ++ [inName] }
    let outName := outputEntryName r.t2 snapFormat
    let s5 := { s4 with execLog := s4.execLog ++ [buildArgs snapFormat inName outName] }
    if r.execOk = false then
      { s5 with uploadedFiles := s5.uploadedFiles.map (updError job.file) }
    else
      let s6 := { s5 with fs := s5.fs ++ [outName] }
      if r.readOk = false then
        { s6 with uploadedFiles := s6.uploadedFiles.map (updError job.file) }
      else
        let s8 := { s6 with
          urlCounter := s6.urlCounter + 1,
          uploadedFiles := s6.uploadedFiles.map (updCompleted job.file s6.urlCounter) }
        if r.delInOk = false then
          { s8 with uploadedFiles := s8.uploadedFiles.map (updError job.file) }
        else
          let s9 := { s8 with fs := s8.fs.erase inName }
          if r.delOutOk = false then
            { s9 with uploadedFiles := s9.uploadedFiles.map (updError job.file) }
          else
            let s10 := { s9 with fs := s9.fs.erase outName }
            if allCompleted snapFiles job.file then
              { s10 with conversionState := completedCP }
            else s10

/-- `convertVideo` (source lines 126-206).  `snapFormat` and `snapFiles` are
the closure-captured `outputFormat` and `uploadedFiles` (the `useCallback`
dependencies, captured at the render in which the running `onDrop` was
created).  `initializeFFmpeg` (source lines 91-124) returns the cached
engine when present; otherwise it sets the loading state and attempts the
load, whose failure is caught by `convertVideo`'s catch block. -/
def convertVideo (snapFormat : String) (snapFiles : List FileConversion)
    (job : FileConversion) (r : ConvRun) (s : ConverterState) : ConverterState :=
  if s.ffmpegLoaded then
    convertBody snapFormat snapFiles job r s
  else if r.loadOk then
    convertBody snapFormat snapFiles job r
      { s with conversionState := loadingCP, ffmpegLoaded := true,
               engineLoadCount := s.engineLoadCount + 1 }
  else
    { s with conversionState := loadingCP,
             uploadedFiles := s.uploadedFiles.map (updError job.file) }

/-- A newly created pending job (source lines 214-218). -/
def mkPendingJob (f : Nat × String) : FileConversion :=
  { file := f.1, fileName := f.2, status := .pending, progress := 0,
    downloadUrl := none, error := none }

/-- JavaScript `arr.slice(0, e)`: a negative end counts from the end of the
array (source line 212 computes `acceptedFiles.slice(0, availableSlots)`
where `availableSlots = 5 - currentCount` is an ordinary, possibly negative,
JS number). -/
def jsSliceTo {α : Type} (l : List α) (e : Int) : List α :=
  let n : Int := l.length
  let bound : Int := if e < 0 then max (n + e) 0 else min e n
  l.take bound.toNat

/-- The new pending jobs created by a drop (source lines 210-218). -/
def newJobsOf (s : ConverterState) (acceptedFiles : List (Nat × String)) :
    List FileConversion :=
  (jsSliceTo acceptedFiles (5 - (s.uploadedFiles.length : Int))).map mkPendingJob

/-- Pad the environment's run list so that every job of the batch has a run;
unused padding entries are all-success runs. -/
def padRuns (runs : List ConvRun) (n : Nat) : List ConvRun :=
  (List.range n).map fun i => runs.getD i okRun

/-- The sequential `for ... await convertVideo(...)` loop of `onDrop`
(source lines 222-225). -/
def processJobs (snapFormat : String) (snapFiles : List FileConversion) :
    List (FileConversion × ConvRun) → ConverterState → ConverterState
  | [], s => s
  | (job, r) :: rest, s =>
      processJobs snapFormat snapFiles rest (convertVideo snapFormat snapFiles job r s)

/-- `onDrop` (source lines 208-226): truncate the dropped files to the
remaining capacity of 5, append them as pending jobs, then convert them one
by one with the closure-captured `outputFormat` and `uploadedFiles`. -/
def onDrop (acceptedFiles : List (Nat × String)) (runs : List ConvRun)
    (s : ConverterState) : ConverterState :=
  let snapFormat := s.outputFormat
  let snapFiles := s.uploadedFiles
  let newFiles := newJobsOf s acceptedFiles
  let s1 := { s with uploadedFiles := s.uploadedFiles ++ newFiles }
  processJobs snapFormat snapFiles (newFiles.zip (padRuns runs newFiles.length)) s1

/-- `name.replace(/\.[^.]+$/, '.' + ext)` (source line 243): replace a final
dot-extension (a dot followed by one or more non-dot characters at the end)
by the new extension; names without such a suffix are unchanged. -/
def replaceExtension (name ext : String) : String :=
  let parts := splitDot name
  if 2 ≤ parts.length ∧ parts.getLastD "" ≠ "" then
    joinWithDot parts.dropLast ++ "." ++ ext
  else name

/-- `downloadVideo` (source lines 238-248): when the job has a download URL,
deliver it under the name obtained from the job's file name and the
component's current `outputFormat` (`const ext = outputFormat` on line 240
reads the state at the moment of the download). -/
def downloadVideo (s : ConverterState) (fc : FileConversion) : Option (Nat × String) :=
  match fc.downloadUrl with
  | some url => some (url, replaceExtension fc.fileName s.outputFormat)
  | none => none

/-- `resetConverter` (source lines 250-263): revoke every held download URL,
clear the job list and return the aggregate state to idle.  The engine
handle (`ffmpegRef`) is not touched. -/
def resetConverter (s : ConverterState) : ConverterState :=
  { s with
    revoked := s.revoked ++ s.uploadedFiles.filterMap (·.downloadUrl),
    uploadedFiles := [],
    conversionState := { phase := .idle, message := initialMessage, progress := none } }

/-- The drop zone and the format radio inputs are disabled while the phase
is `loading` or `converting` (source lines 235 and 299). -/
def uiBusy (s : ConverterState) : Bool :=
  s.conversionState.phase == .loading || s.conversionState.phase == .converting

/-- User actions on the component: dropping files (with the environment's
choices for each conversion), selecting a target format, and resetting. -/
inductive Action where
  | drop (files : List (Nat × String)) (runs : List ConvRun)
  | selectFormat (fmt : String)
  | reset
deriving DecidableEq, Repr

/-- One user action applied to a state.  Drops and format changes are
gated on the `disabled` conditions of the corresponding UI elements. -/
def step (s : ConverterState) : Action → ConverterState
  | .drop files runs => if uiBusy s then s else onDrop files runs s
  | .selectFormat fmt => if uiBusy s then s else { s with outputFormat := fmt }
  | .reset => resetConverter s

/-- The state reached from the initial state by a sequence of actions. -/
def execTrace (acts : List Action) : ConverterState :=
  acts.foldl step initState

end Converter

namespace Converter

/-! ### Concrete scenario material -/

/-- Environment run for a conversion whose `ffmpeg.exec` call rejects, with
`Date.now()` readings 7 and 8. -/
def execFailRun : ConvRun := { okRun with t1 := 7, t2 := 8, execOk := false }

/-- Environment run for a conversion in which everything up to and including
reading the output succeeds but `ffmpeg.deleteFile(inputName)` rejects. -/
def delInFailRun : ConvRun := { okRun with delInOk := false }

/-- A dummy job used as the default of `List.getD`. -/
def dummyJob : FileConversion := mkPendingJob (0, "")

/-- The state of the component immediately after the first conversion of a
two-file drop on a fresh component: `onDrop` appended both pending jobs and
the loop has run `convertVideo` for the first job only, with the
closure-captured (pre-drop, hence empty) `uploadedFiles` list. -/
def midTwoDrop : ConverterState :=
  convertVideo "mp4" [] (mkPendingJob (1, "a.mkv")) okRun
    { initState with uploadedFiles := [mkPendingJob (1, "a.mkv"), mkPendingJob (2, "b.mkv")] }

end Converter

namespace Converter

/-! ### Claims settled on concrete executions -/

/-- C1: the claim states that a job's conversion and its download name both
use the target format selected when the job was submitted (P3: submit Job A
with `mp4`, change the format to `webm`, submit Job B; Job A's output name
must end in `.mp4`).  On the code, the conversion does use the
submission-time format (Job A is converted with an `output_....mp4` command,
first `execLog` entry), but `downloadVideo` reads the component's *current*
`outputFormat` (line 240), so after the change Job A downloads under the
name `a.webm`, not a name ending in `.mp4`.  This theorem runs exactly the
scenario of the claim and exhibits the divergence. -/
theorem C1_download_name_uses_download_time_format :
    (execTrace [.drop [(1, "a.mkv")] [okRun], .selectFormat "webm",
                .drop [(2, "b.mkv")] [okRun]]).execLog =
      [["-i", "input_0.mkv", "-c", "copy", "-movflags", "+faststart", "output_0.mp4"],
       ["-i", "input_0.mkv", "-c", "copy", "-movflags", "+faststart", "output_0.webm"]] ∧
    ((execTrace [.drop [(1, "a.mkv")] [okRun], .selectFormat "webm",
                 .drop [(2, "b.mkv")] [okRun]]).uploadedFiles.map (·.status)) =
      [.completed, .completed] ∧
    downloadVideo
      (execTrace [.drop [(1, "a.mkv")] [okRun], .selectFormat "webm",
                  .drop [(2, "b.mkv")] [okRun]])
      ((execTrace [.drop [(1, "a.mkv")] [okRun], .selectFormat "webm",
                   .drop [(2, "b.mkv")] [okRun]]).uploadedFiles.getD 0 dummyJob) =
      some (0, "a.webm") ∧
    strEndsWith "a.webm" ".mp4" = false ∧
    strEndsWith "a.webm" ".webm" = true := by
  refine ⟨?_, ?_, ?_, ?_, ?_⟩ <;> decide

/-- C2: the claim states that the aggregate phase is `Completed` only when
every tracked job is terminal (and never while some job is `Pending` or
`Converting`).  On the code, `allCompleted` (lines 183-186) is evaluated
over the closure-captured job list from before the drop, so after the first
conversion of a two-file drop on a fresh component the phase is already
`completed` while the second job is still `pending`.  `midTwoDrop` is that
very intermediate state: the last conjunct shows the state reached by the
drop is `midTwoDrop` continued by the second job's conversion. -/
theorem C2_phase_completed_while_job_pending :
    midTwoDrop.conversionState.phase = .completed ∧
    (midTwoDrop.uploadedFiles.map (·.status)) = [.completed, .pending] ∧
    execTrace [.drop [(1, "a.mkv"), (2, "b.mkv")] [okRun, okRun]] =
      processJobs "mp4" [] [(mkPendingJob (2, "b.mkv"), okRun)] midTwoDrop := by
  refine ⟨?_, ?_, ?_⟩ <;> decide

/-- C3: the claim states that the engine-internal entries written for a
conversion are removed before the conversion returns on the success path and
on every failure path alike.  On the code, the two `deleteFile` calls (lines
180-181) sit on the success path only; the catch block removes nothing, so
when `ffmpeg.exec` rejects the written input entry `input_7.mkv` is left in
the engine's virtual file system, while a fully successful conversion does
leave it empty. -/
theorem C3_failure_path_leaks_input_entry :
    (execTrace [.drop [(1, "a.mkv")] [execFailRun]]).fs = ["input_7.mkv"] ∧
    ((execTrace [.drop [(1, "a.mkv")] [execFailRun]]).uploadedFiles.map (·.status)) =
      [.error] ∧
    (execTrace [.drop [(1, "a.mkv")] [okRun]]).fs = [] := by
  refine ⟨?_, ?_, ?_⟩ <;> decide

/-- C4 counterexample: the claim states that a job that reached a terminal
status has exactly one of `downloadUrl` / `error` set — never both — and
that its terminal status never changes.  When every operation up to reading
the output succeeds but the cleanup `deleteFile(inputName)` rejects, the
job is first marked `completed` with its download URL (lines 171-177) and
the catch block then re-marks it `error` while the spread keeps
`downloadUrl` (lines 198-204): the job ends with *both* fields set, and its
terminal status changed from `completed` to `error`. -/
theorem C4_counterexample_both_fields_set :
    (execTrace [.drop [(1, "a.mkv")] [delInFailRun]]).uploadedFiles =
      [{ file := 1, fileName := "a.mkv", status := .error, progress := 100,
         downloadUrl := some 0, error := some "Conversion failed" }] ∧
    (execTrace [.drop [(1, "a.mkv")] [okRun]]).uploadedFiles =
      [{ file := 1, fileName := "a.mkv", status := .completed, progress := 100,
         downloadUrl := some 0, error := none }] := by
  refine ⟨?_, ?_⟩ <;> decide

end Converter

namespace Converter

/-! ### Pointwise characterisation of one conversion -/

/-- The five post-initialisation success flags of a run; when the engine is
already loaded (or its load succeeds), a conversion completes exactly when
all five hold. -/
def restOk (r : ConvRun) : Bool :=
  r.writeOk && r.execOk && r.readOk && r.delInOk && r.delOutOk

/-- The net effect of `convertBody` on a single job-list entry, as a
function of the run's flags; `c` is the value of `urlCounter` at the start
of the call. -/
def bodyUpd (r : ConvRun) (f c : Nat) (fc : FileConversion) : FileConversion :=
  if r.writeOk = false then updError f (updConverting f fc)
  else if r.execOk = false then updError f (updConverting f fc)
  else if r.readOk = false then updError f (updConverting f fc)
  else if r.delInOk = false then updError f (updCompleted f c (updConverting f fc))
  else if r.delOutOk = false then updError f (updCompleted f c (updConverting f fc))
  else updCompleted f c (updConverting f fc)

/-- The net effect of `convertVideo` on a single job-list entry: when the
engine is not loaded and its load fails, the job is marked `error` directly;
otherwise the entry is transformed by `bodyUpd`. -/
def videoUpd (loaded : Bool) (r : ConvRun) (f c : Nat) (fc : FileConversion) : FileConversion :=
  if loaded = false ∧ r.loadOk = false then updError f fc else bodyUpd r f c fc

theorem updConverting_file (f : Nat) (fc : FileConversion) :
    (updConverting f fc).file = fc.file := by
  unfold updConverting; split <;> rfl

theorem updCompleted_file (f c : Nat) (fc : FileConversion) :
    (updCompleted f c fc).file = fc.file := by
  unfold updCompleted; split <;> rfl

theorem updError_file (f : Nat) (fc : FileConversion) :
    (updError f fc).file = fc.file := by
  unfold updError; split <;> rfl

theorem bodyUpd_file (r : ConvRun) (f c : Nat) (fc : FileConversion) :
    (bodyUpd r f c fc).file = fc.file := by
  unfold bodyUpd
  repeat' split
  all_goals first
    | rfl
    | simp [updConverting_file, updCompleted_file, updError_file]

theorem videoUpd_file (loaded : Bool) (r : ConvRun) (f c : Nat) (fc : FileConversion) :
    (videoUpd loaded r f c fc).file = fc.file := by
  unfold videoUpd
  split <;> simp [bodyUpd_file, updError_file]

theorem updConverting_not_target {f : Nat} {fc : FileConversion} (h : fc.file ≠ f) :
    updConverting f fc = fc := by
  simp [updConverting, h]

theorem updCompleted_not_target {f : Nat} {fc : FileConversion} (c : Nat) (h : fc.file ≠ f) :
    updCompleted f c fc = fc := by
  simp [updCompleted, h]

theorem updError_not_target {f : Nat} {fc : FileConversion} (h : fc.file ≠ f) :
    updError f fc = fc := by
  simp [updError, h]

theorem videoUpd_not_target {f : Nat} {fc : FileConversion} (loaded : Bool) (r : ConvRun)
    (c : Nat) (h : fc.file ≠ f) : videoUpd loaded r f c fc = fc := by
  unfold videoUpd bodyUpd
  repeat' split
  all_goals first
    | rfl
    | simp only [updConverting_not_target h, updCompleted_not_target _ h,
        updError_not_target h]

end Converter

namespace Converter

/-- The job identities tracked by a state, in list order. -/
def jobIds (s : ConverterState) : List Nat :=
  s.uploadedFiles.map (·.file)

theorem convertBody_uploadedFiles (fmt : String) (snap : List FileConversion)
    (job : FileConversion) (r : ConvRun) (s : ConverterState) :
    (convertBody fmt snap job r s).uploadedFiles =
      s.uploadedFiles.map (bodyUpd r job.file s.urlCounter) := by
  cases hw : r.writeOk <;> cases he : r.execOk <;> cases hr2 : r.readOk <;>
    cases hdi : r.delInOk <;> cases hdo : r.delOutOk <;>
      simp [convertBody, bodyUpd, hw, he, hr2, hdi, hdo, List.map_map, Function.comp,
        apply_ite (ConverterState.uploadedFiles)]

theorem convertVideo_uploadedFiles (fmt : String) (snap : List FileConversion)
    (job : FileConversion) (r : ConvRun) (s : ConverterState) :
    (convertVideo fmt snap job r s).uploadedFiles =
      s.uploadedFiles.map (videoUpd s.ffmpegLoaded r job.file s.urlCounter) := by
  cases hl : s.ffmpegLoaded <;> cases hlo : r.loadOk <;>
    simp [convertVideo, videoUpd, hl, hlo, convertBody_uploadedFiles]

theorem convertBody_outputFormat (fmt : String) (snap : List FileConversion)
    (job : FileConversion) (r : ConvRun) (s : ConverterState) :
    (convertBody fmt snap job r s).outputFormat = s.outputFormat := by
  unfold convertBody
  repeat' split
  all_goals rfl

theorem convertVideo_outputFormat (fmt : String) (snap : List FileConversion)
    (job : FileConversion) (r : ConvRun) (s : ConverterState) :
    (convertVideo fmt snap job r s).outputFormat = s.outputFormat := by
  unfold convertVideo
  repeat' split
  all_goals simp [convertBody_outputFormat]

theorem convertBody_revoked (fmt : String) (snap : List FileConversion)
    (job : FileConversion) (r : ConvRun) (s : ConverterState) :
    (convertBody fmt snap job r s).revoked = s.revoked := by
  unfold convertBody
  repeat' split
  all_goals rfl

theorem convertVideo_revoked (fmt : String) (snap : List FileConversion)
    (job : FileConversion) (r : ConvRun) (s : ConverterState) :
    (convertVideo fmt snap job r s).revoked = s.revoked := by
  unfold convertVideo
  repeat' split
  all_goals simp [convertBody_revoked]

theorem convertBody_ffmpegLoaded (fmt : String) (snap : List FileConversion)
    (job : FileConversion) (r : ConvRun) (s : ConverterState) :
    (convertBody fmt snap job r s).ffmpegLoaded = s.ffmpegLoaded := by
  unfold convertBody
  repeat' split
  all_goals rfl

theorem convertVideo_ffmpegLoaded (fmt : String) (snap : List FileConversion)
    (job : FileConversion) (r : ConvRun) (s : ConverterState) :
    (convertVideo fmt snap job r s).ffmpegLoaded = (s.ffmpegLoaded || r.loadOk) := by
  cases hl : s.ffmpegLoaded <;> cases hlo : r.loadOk <;>
    simp [convertVideo, hl, hlo, convertBody_ffmpegLoaded]

theorem convertBody_engineLoadCount (fmt : String) (snap : List FileConversion)
    (job : FileConversion) (r : ConvRun) (s : ConverterState) :
    (convertBody fmt snap job r s).engineLoadCount = s.engineLoadCount := by
  unfold convertBody
  repeat' split
  all_goals rfl

theorem convertVideo_engineLoadCount (fmt : String) (snap : List FileConversion)
    (job : FileConversion) (r : ConvRun) (s : ConverterState) :
    (convertVideo fmt snap job r s).engineLoadCount =
      (if s.ffmpegLoaded then s.engineLoadCount
       else if r.loadOk then s.engineLoadCount + 1 else s.engineLoadCount) := by
  cases hl : s.ffmpegLoaded <;> cases hlo : r.loadOk <;>
    simp [convertVideo, hl, hlo, convertBody_engineLoadCount]

theorem convertBody_urlCounter (fmt : String) (snap : List FileConversion)
    (job : FileConversion) (r : ConvRun) (s : ConverterState) :
    (convertBody fmt snap job r s).urlCounter =
      (if r.writeOk && r.execOk && r.readOk then s.urlCounter + 1 else s.urlCounter) := by
  cases hw : r.writeOk <;> cases he : r.execOk <;> cases hr2 : r.readOk <;>
    simp [convertBody, hw, he, hr2, apply_ite (ConverterState.urlCounter)]

theorem convertVideo_urlCounter (fmt : String) (snap : List FileConversion)
    (job : FileConversion) (r : ConvRun) (s : ConverterState) :
    (convertVideo fmt snap job r s).urlCounter =
      (if (s.ffmpegLoaded || r.loadOk) && r.writeOk && r.execOk && r.readOk then
        s.urlCounter + 1
       else s.urlCounter) := by
  cases hl : s.ffmpegLoaded <;> cases hlo : r.loadOk <;>
    simp [convertVideo, hl, hlo, convertBody_urlCounter]

theorem convertBody_execLog (fmt : String) (snap : List FileConversion)
    (job : FileConversion) (r : ConvRun) (s : ConverterState) :
    (convertBody fmt snap job r s).execLog =
      (if r.writeOk then
        s.execLog ++ [buildArgs fmt (inputEntryName r.t1 job.fileName)
          (outputEntryName r.t2 fmt)]
       else s.execLog) := by
  cases hw : r.writeOk <;>
    simp [convertBody, hw, apply_ite (ConverterState.execLog)]

theorem convertVideo_execLog (fmt : String) (snap : List FileConversion)
    (job : FileConversion) (r : ConvRun) (s : ConverterState) :
    (convertVideo fmt snap job r s).execLog =
      (if (s.ffmpegLoaded || r.loadOk) && r.writeOk then
        s.execLog ++ [buildArgs fmt (inputEntryName r.t1 job.fileName)
          (outputEntryName r.t2 fmt)]
       else s.execLog) := by
  cases hl : s.ffmpegLoaded <;> cases hlo : r.loadOk <;>
    simp [convertVideo, hl, hlo, convertBody_execLog]

theorem convertVideo_length (fmt : String) (snap : List FileConversion)
    (job : FileConversion) (r : ConvRun) (s : ConverterState) :
    (convertVideo fmt snap job r s).uploadedFiles.length = s.uploadedFiles.length := by
  simp [convertVideo_uploadedFiles]

theorem convertVideo_jobIds (fmt : String) (snap : List FileConversion)
    (job : FileConversion) (r : ConvRun) (s : ConverterState) :
    jobIds (convertVideo fmt snap job r s) = jobIds s := by
  simp only [jobIds, convertVideo_uploadedFiles, List.map_map]
  exact List.map_congr_left fun fc _ => videoUpd_file _ _ _ _ fc

end Converter

namespace Converter


theorem videoUpd_target_terminal {f : Nat} {fc : FileConversion} (loaded : Bool)
    (r : ConvRun) (c : Nat) (h : fc.file = f) :
    (videoUpd loaded r f c fc).status = .completed ∨
      (videoUpd loaded r f c fc).status = .error := by
  unfold videoUpd bodyUpd updConverting updCompleted updError
  simp only [h, beq_self_eq_true, if_true]
  repeat' split
  all_goals simp_all

theorem videoUpd_target_ok {f : Nat} {fc : FileConversion} {loaded : Bool} {r : ConvRun}
    (c : Nat) (h : fc.file = f) (hl : loaded = true ∨ r.loadOk = true)
    (hrest : restOk r = true) :
    videoUpd loaded r f c fc =
      { fc with status := .completed, progress := 100, downloadUrl := some c } := by
  simp only [restOk, Bool.and_eq_true] at hrest
  obtain ⟨⟨⟨⟨hw, he⟩, hr2⟩, hdi⟩, hdo⟩ := hrest
  unfold videoUpd bodyUpd updConverting updCompleted
  rcases hl with hl | hl <;>
    simp [h, hl, hw, he, hr2, hdi, hdo]

theorem videoUpd_target_err {f : Nat} {fc : FileConversion} {loaded : Bool} {r : ConvRun}
    (c : Nat) (h : fc.file = f) (hl : r.loadOk = true) (hrest : restOk r = false) :
    (videoUpd loaded r f c fc).status = .error ∧
      (videoUpd loaded r f c fc).error = some "Conversion failed" := by
  unfold videoUpd bodyUpd updConverting updCompleted updError
  simp only [restOk] at hrest
  simp only [h, beq_self_eq_true, if_true, hl]
  repeat' split
  all_goals simp_all

theorem videoUpd_target_shape {f : Nat} {fc : FileConversion} (loaded : Bool)
    {r : ConvRun} (c : Nat) (h : fc.file = f) (hdi : r.delInOk = true)
    (hdo : r.delOutOk = true) :
    videoUpd loaded r f c fc =
        { fc with status := .completed, progress := 100, downloadUrl := some c } ∨
      ((videoUpd loaded r f c fc).status = .error ∧
        (videoUpd loaded r f c fc).downloadUrl = fc.downloadUrl ∧
        (videoUpd loaded r f c fc).error = some "Conversion failed") := by
  unfold videoUpd bodyUpd updConverting updCompleted updError
  simp only [h, beq_self_eq_true, if_true, hdi, hdo]
  repeat' split
  all_goals simp_all

theorem videoUpd_error_field (loaded : Bool) (r : ConvRun) (f c : Nat)
    (fc : FileConversion) :
    (videoUpd loaded r f c fc).error = fc.error ∨
      (videoUpd loaded r f c fc).error = some "Conversion failed" := by
  by_cases hf : fc.file = f
  · unfold videoUpd bodyUpd updConverting updCompleted updError
    simp only [hf, beq_self_eq_true, if_true]
    repeat' split
    all_goals simp_all
  · simp [videoUpd_not_target loaded r c hf]

theorem videoUpd_url_field (loaded : Bool) (r : ConvRun) (f c : Nat)
    (fc : FileConversion) :
    (videoUpd loaded r f c fc).downloadUrl = fc.downloadUrl ∨
      (videoUpd loaded r f c fc).downloadUrl = some c := by
  by_cases hf : fc.file = f
  · unfold videoUpd bodyUpd updConverting updCompleted updError
    simp only [hf, beq_self_eq_true, if_true]
    repeat' split
    all_goals simp_all
  · simp [videoUpd_not_target loaded r c hf]

theorem videoUpd_url_new (loaded : Bool) (r : ConvRun) (f c : Nat)
    (fc : FileConversion)
    (hne : (videoUpd loaded r f c fc).downloadUrl ≠ fc.downloadUrl) :
    (videoUpd loaded r f c fc).downloadUrl = some c ∧ fc.file = f ∧
      ((loaded || r.loadOk) && r.writeOk && r.execOk && r.readOk) = true := by
  by_cases hf : fc.file = f
  · cases hL : loaded <;> cases h1 : r.loadOk <;> cases h2 : r.writeOk <;>
      cases h3 : r.execOk <;> cases h4 : r.readOk <;>
        simp_all [videoUpd, bodyUpd, updConverting, updCompleted, updError,
          apply_ite (FileConversion.downloadUrl)]
  · exact absurd (congrArg FileConversion.downloadUrl (videoUpd_not_target loaded r c hf)) hne

end Converter

namespace Converter

/-! ### Structure of the sequential batch loop -/

/-- The job identities targeted by a list of (job, run) pairs. -/
def pairIds (pairs : List (FileConversion × ConvRun)) : List Nat :=
  pairs.map fun p => p.1.file

theorem processJobs_files_map (fmt : String) (snap : List FileConversion)
    (pairs : List (FileConversion × ConvRun)) (s : ConverterState) :
    ∃ G : FileConversion → FileConversion,
      (processJobs fmt snap pairs s).uploadedFiles = s.uploadedFiles.map G ∧
      (∀ fc, fc.file ∉ pairIds pairs → G fc = fc) ∧
      (∀ fc, (G fc).file = fc.file) := by
  induction pairs generalizing s with
  | nil => exact ⟨id, by simp [processJobs], fun _ _ => rfl, fun _ => rfl⟩
  | cons p rest ih =>
      obtain ⟨G, hG, hGoff, hGfile⟩ := ih (convertVideo fmt snap p.1 p.2 s)
      refine ⟨fun fc => G (videoUpd s.ffmpegLoaded p.2 p.1.file s.urlCounter fc),
        ?_, ?_, ?_⟩
      · show (processJobs fmt snap rest (convertVideo fmt snap p.1 p.2 s)).uploadedFiles = _
        rw [hG, convertVideo_uploadedFiles, List.map_map]
        rfl
      · intro fc hfc
        have h2 : fc.file ≠ p.1.file := by
          intro he
          exact hfc (by simp [pairIds, he])
        have h1 : fc.file ∉ pairIds rest := by
          intro hm
          exact hfc (by simp [pairIds] at hm ⊢; exact Or.inr hm)
        show G (videoUpd s.ffmpegLoaded p.2 p.1.file s.urlCounter fc) = fc
        rw [videoUpd_not_target _ _ _ h2, hGoff _ h1]
      · intro fc
        rw [hGfile, videoUpd_file]

theorem processJobs_outputFormat (fmt : String) (snap : List FileConversion)
    (pairs : List (FileConversion × ConvRun)) (s : ConverterState) :
    (processJobs fmt snap pairs s).outputFormat = s.outputFormat := by
  induction pairs generalizing s with
  | nil => rfl
  | cons p rest ih =>
      show (processJobs fmt snap rest (convertVideo fmt snap p.1 p.2 s)).outputFormat = _
      rw [ih, convertVideo_outputFormat]

theorem processJobs_revoked (fmt : String) (snap : List FileConversion)
    (pairs : List (FileConversion × ConvRun)) (s : ConverterState) :
    (processJobs fmt snap pairs s).revoked = s.revoked := by
  induction pairs generalizing s with
  | nil => rfl
  | cons p rest ih =>
      show (processJobs fmt snap rest (convertVideo fmt snap p.1 p.2 s)).revoked = _
      rw [ih, convertVideo_revoked]

theorem processJobs_jobIds (fmt : String) (snap : List FileConversion)
    (pairs : List (FileConversion × ConvRun)) (s : ConverterState) :
    jobIds (processJobs fmt snap pairs s) = jobIds s := by
  induction pairs generalizing s with
  | nil => rfl
  | cons p rest ih =>
      show jobIds (processJobs fmt snap rest (convertVideo fmt snap p.1 p.2 s)) = _
      rw [ih, convertVideo_jobIds]

theorem processJobs_length (fmt : String) (snap : List FileConversion)
    (pairs : List (FileConversion × ConvRun)) (s : ConverterState) :
    (processJobs fmt snap pairs s).uploadedFiles.length = s.uploadedFiles.length := by
  have h := congrArg List.length (processJobs_jobIds fmt snap pairs s)
  simpa [jobIds] using h

theorem processJobs_ffmpegLoaded_mono (fmt : String) (snap : List FileConversion)
    (pairs : List (FileConversion × ConvRun)) (s : ConverterState)
    (h : s.ffmpegLoaded = true) :
    (processJobs fmt snap pairs s).ffmpegLoaded = true := by
  induction pairs generalizing s with
  | nil => exact h
  | cons p rest ih =>
      show (processJobs fmt snap rest (convertVideo fmt snap p.1 p.2 s)).ffmpegLoaded = true
      exact ih _ (by rw [convertVideo_ffmpegLoaded, h, Bool.true_or])

theorem processJobs_engineLoadCount_loaded (fmt : String) (snap : List FileConversion)
    (pairs : List (FileConversion × ConvRun)) (s : ConverterState)
    (h : s.ffmpegLoaded = true) :
    (processJobs fmt snap pairs s).engineLoadCount = s.engineLoadCount := by
  induction pairs generalizing s with
  | nil => rfl
  | cons p rest ih =>
      show (processJobs fmt snap rest (convertVideo fmt snap p.1 p.2 s)).engineLoadCount = _
      rw [ih _ (by rw [convertVideo_ffmpegLoaded, h, Bool.true_or]),
        convertVideo_engineLoadCount]
      simp [h]

/-- A job whose identity is not targeted by the batch is still present,
unchanged, after the batch. -/
theorem processJobs_untouched (fmt : String) (snap : List FileConversion)
    (pairs : List (FileConversion × ConvRun)) (s : ConverterState)
    {j : FileConversion} (hj : j ∈ s.uploadedFiles) (hid : j.file ∉ pairIds pairs) :
    j ∈ (processJobs fmt snap pairs s).uploadedFiles := by
  obtain ⟨G, hG, hGoff, _⟩ := processJobs_files_map fmt snap pairs s
  rw [hG]
  exact List.mem_map.mpr ⟨j, hj, hGoff j hid⟩

/-- With distinct job identities, the only entry carrying the identity of an
untargeted job after the batch is that job itself, unchanged. -/
theorem processJobs_entry_eq (fmt : String) (snap : List FileConversion)
    (pairs : List (FileConversion × ConvRun)) (s : ConverterState)
    (hn : (jobIds s).Nodup) {j : FileConversion} (hj : j ∈ s.uploadedFiles)
    (hid : j.file ∉ pairIds pairs) :
    ∀ k ∈ (processJobs fmt snap pairs s).uploadedFiles, k.file = j.file → k = j := by
  obtain ⟨G, hG, hGoff, hGfile⟩ := processJobs_files_map fmt snap pairs s
  intro k hk hkf
  rw [hG] at hk
  obtain ⟨fc, hfc, hfck⟩ := List.mem_map.mp hk
  have hfile : fc.file = j.file := by rw [← hkf, ← hfck, hGfile]
  have : fc = j := List.inj_on_of_nodup_map hn hfc hj hfile
  subst this
  rw [← hfck, hGoff fc (hfile ▸ hid)]

end Converter

namespace Converter

/-- Every job targeted by the batch has a terminal status after the batch,
whatever the environment does: each conversion either completes its job or
marks it failed, and later conversions of the batch target other jobs. -/
theorem processJobs_target_terminal (fmt : String) (snap : List FileConversion)
    (pairs : List (FileConversion × ConvRun)) (s : ConverterState)
    (hpnd : (pairIds pairs).Nodup) :
    ∀ p ∈ pairs, ∀ k ∈ (processJobs fmt snap pairs s).uploadedFiles,
      k.file = p.1.file → k.status = .completed ∨ k.status = .error := by
  induction pairs generalizing s with
  | nil => simp
  | cons q rest ih =>
      have hpnd2 : (q.1.file :: pairIds rest).Nodup := hpnd
      have hq : q.1.file ∉ pairIds rest := (List.nodup_cons.mp hpnd2).1
      intro p hp k hk hkf
      rcases List.mem_cons.mp hp with hp | hp
      · subst hp
        have hk2 : k ∈ (processJobs fmt snap rest
            (convertVideo fmt snap p.1 p.2 s)).uploadedFiles := hk
        obtain ⟨G, hG, hGoff, hGfile⟩ :=
          processJobs_files_map fmt snap rest (convertVideo fmt snap p.1 p.2 s)
        rw [hG] at hk2
        obtain ⟨fc, hfc, hfck⟩ := List.mem_map.mp hk2
        have hfcfile : fc.file = p.1.file := by
          rw [← hkf, ← hfck, hGfile]
        have hfix : G fc = fc := hGoff fc (by rw [hfcfile]; exact hq)
        rw [← hfck, hfix]
        rw [convertVideo_uploadedFiles] at hfc
        obtain ⟨fc0, hfc0, hfc0e⟩ := List.mem_map.mp hfc
        have hfc0f : fc0.file = p.1.file := by
          rw [← hfcfile, ← hfc0e, videoUpd_file]
        rw [← hfc0e]
        exact videoUpd_target_terminal _ _ _ hfc0f
      · exact ih (convertVideo fmt snap q.1 q.2 s) (List.nodup_cons.mp hpnd2).2 p hp k hk hkf

/-- When no engine load fails, the terminal status of each job of the batch
is decided by its own run alone: `completed` exactly when all its five
post-initialisation operations succeed, `error` (with the fixed generic
message) otherwise. -/
theorem processJobs_target_run (fmt : String) (snap : List FileConversion)
    (pairs : List (FileConversion × ConvRun)) (s : ConverterState)
    (hpnd : (pairIds pairs).Nodup)
    (hload : ∀ p ∈ pairs, p.2.loadOk = true) :
    ∀ p ∈ pairs, ∀ k ∈ (processJobs fmt snap pairs s).uploadedFiles,
      k.file = p.1.file →
        (restOk p.2 = true → k.status = .completed) ∧
        (restOk p.2 = false → k.status = .error ∧ k.error = some "Conversion failed") := by
  induction pairs generalizing s with
  | nil => simp
  | cons q rest ih =>
      have hpnd2 : (q.1.file :: pairIds rest).Nodup := hpnd
      have hq : q.1.file ∉ pairIds rest := (List.nodup_cons.mp hpnd2).1
      intro p hp k hk hkf
      rcases List.mem_cons.mp hp with hp | hp
      · subst hp
        have hk2 : k ∈ (processJobs fmt snap rest
            (convertVideo fmt snap p.1 p.2 s)).uploadedFiles := hk
        obtain ⟨G, hG, hGoff, hGfile⟩ :=
          processJobs_files_map fmt snap rest (convertVideo fmt snap p.1 p.2 s)
        rw [hG] at hk2
        obtain ⟨fc, hfc, hfck⟩ := List.mem_map.mp hk2
        have hfcfile : fc.file = p.1.file := by
          rw [← hkf, ← hfck, hGfile]
        have hfix : G fc = fc := hGoff fc (by rw [hfcfile]; exact hq)
        rw [← hfck, hfix]
        rw [convertVideo_uploadedFiles] at hfc
        obtain ⟨fc0, hfc0, hfc0e⟩ := List.mem_map.mp hfc
        have hfc0f : fc0.file = p.1.file := by
          rw [← hfcfile, ← hfc0e, videoUpd_file]
        constructor
        · intro hrest
          rw [← hfc0e, videoUpd_target_ok _ hfc0f (Or.inr (hload p (List.mem_cons_self _ _)))
            hrest]
        · intro hrest
          rw [← hfc0e]
          exact videoUpd_target_err _ hfc0f (hload p (List.mem_cons_self _ _)) hrest
      · exact ih (convertVideo fmt snap q.1 q.2 s) (List.nodup_cons.mp hpnd2).2
          (fun p2 hp2 => hload p2 (List.mem_cons_of_mem _ hp2)) p hp k hk hkf

end Converter

namespace Converter

/-! ### Decomposition of a drop -/

theorem padRuns_length (runs : List ConvRun) (n : Nat) : (padRuns runs n).length = n := by
  simp [padRuns]

theorem pairIds_zip (jobs : List FileConversion) (rs : List ConvRun)
    (h : jobs.length ≤ rs.length) :
    pairIds (jobs.zip rs) = jobs.map (·.file) := by
  unfold pairIds
  rw [show (fun (p : FileConversion × ConvRun) => p.1.file) =
    (fun fc : FileConversion => fc.file) ∘ Prod.fst from rfl]
  rw [← List.map_map, List.map_fst_zip _ _ h]

theorem newJobsOf_ids (s : ConverterState) (files : List (Nat × String)) :
    (newJobsOf s files).map (·.file) =
      (jsSliceTo files (5 - (s.uploadedFiles.length : Int))).map Prod.fst := by
  simp [newJobsOf, mkPendingJob, List.map_map]

/-- `onDrop` unfolded: snapshot the format and the job list, append the new
pending jobs, then run the loop. -/
theorem onDrop_eq (files : List (Nat × String)) (runs : List ConvRun)
    (s : ConverterState) :
    onDrop files runs s =
      processJobs s.outputFormat s.uploadedFiles
        ((newJobsOf s files).zip (padRuns runs (newJobsOf s files).length))
        { s with uploadedFiles := s.uploadedFiles ++ newJobsOf s files } := rfl

theorem onDrop_jobIds (files : List (Nat × String)) (runs : List ConvRun)
    (s : ConverterState) :
    jobIds (onDrop files runs s) = jobIds s ++ (newJobsOf s files).map (·.file) := by
  rw [onDrop_eq, processJobs_jobIds]
  simp [jobIds]

theorem onDrop_outputFormat (files : List (Nat × String)) (runs : List ConvRun)
    (s : ConverterState) :
    (onDrop files runs s).outputFormat = s.outputFormat := by
  rw [onDrop_eq, processJobs_outputFormat]

theorem jsSliceTo_nonneg {α : Type} (l : List α) (e : Int) (he : 0 ≤ e) :
    jsSliceTo l e = l.take e.toNat := by
  simp only [jsSliceTo]
  rw [if_neg (by omega)]
  rcases le_total e (l.length : Int) with h | h
  · congr 1
    omega
  · have h1 : (min e (l.length : Int)).toNat = l.length := by omega
    rw [h1, List.take_length, List.take_of_length_le (by omega)]

theorem length_jsSliceTo_nonneg {α : Type} (l : List α) (e : Int) (he : 0 ≤ e) :
    (jsSliceTo l e).length = min e.toNat l.length := by
  rw [jsSliceTo_nonneg l e he, List.length_take]

theorem jsSliceTo_subset {α : Type} (l : List α) (e : Int) : jsSliceTo l e ⊆ l := by
  simp only [jsSliceTo]
  exact List.take_subset _ _

/-- Capacity is preserved by every action: a drop appends at most the
remaining number of free slots. -/
theorem step_length_le (s : ConverterState) (a : Action)
    (h : s.uploadedFiles.length ≤ 5) :
    (step s a).uploadedFiles.length ≤ 5 := by
  cases a with
  | drop files runs =>
      by_cases hb : uiBusy s = true
      · simpa [step, hb] using h
      · have hb2 : uiBusy s = false := by revert hb; cases uiBusy s <;> simp
        have he : (0 : Int) ≤ 5 - (s.uploadedFiles.length : Int) := by omega
        have hlen := length_jsSliceTo_nonneg files (5 - (s.uploadedFiles.length : Int)) he
        simp only [step, hb2, Bool.false_eq_true, if_false]
        rw [onDrop_eq, processJobs_length]
        simp only [List.length_append, newJobsOf, List.length_map, hlen]
        omega
  | selectFormat fmt =>
      by_cases hb : uiBusy s = true <;> simp [step, hb, h]
  | reset => simp [step, resetConverter]

/-- The hard queue-size cap: no reachable state tracks more than 5 jobs. -/
theorem execTrace_length_le (acts : List Action) :
    (execTrace acts).uploadedFiles.length ≤ 5 := by
  suffices h : ∀ s, s.uploadedFiles.length ≤ 5 →
      (acts.foldl step s).uploadedFiles.length ≤ 5 by
    exact h initState (by simp [initState])
  induction acts with
  | nil => exact fun s hs => hs
  | cons a rest ih =>
      intro s hs
      exact ih (step s a) (step_length_le s a hs)

end Converter

namespace Converter

/-! ### Traces with fresh file identities

A browser `File` object obtained from a drop is a fresh reference: it is
distinct from every `File` object seen before.  `WfOver` captures exactly
this: the identities of each dropped batch are pairwise distinct and have
never been used by any earlier drop of the trace. -/

/-- The file identities mentioned by an action. -/
def actIds : Action → List Nat
  | .drop files _ => files.map Prod.fst
  | _ => []

/-- The action's file identities are pairwise distinct and fresh with
respect to every identity (`used`) seen earlier in the trace. -/
def WfAct (used : List Nat) : Action → Prop
  | .drop files _ =>
      (files.map Prod.fst).Nodup ∧ ∀ i ∈ files.map Prod.fst, i ∉ used
  | _ => True

/-- Well-formedness of an action list from a given state, accumulating the
identities seen so far. -/
def WfOver (s : ConverterState) (used : List Nat) : List Action → Prop
  | [] => True
  | a :: rest => WfAct used a ∧ WfOver (step s a) (used ++ actIds a) rest

/-- Well-formedness of a whole trace from the initial state. -/
def Wf (acts : List Action) : Prop :=
  WfOver initState [] acts

instance decWfAct (used : List Nat) (a : Action) : Decidable (WfAct used a) := by
  cases a <;> simp only [WfAct] <;> infer_instance

instance decWfOver : (acts : List Action) → (s : ConverterState) → (used : List Nat) →
    Decidable (WfOver s used acts)
  | [], _, _ => .isTrue trivial
  | a :: rest, s, used =>
      have : Decidable (WfOver (step s a) (used ++ actIds a) rest) :=
        decWfOver rest (step s a) (used ++ actIds a)
      instDecidableAnd

instance decWf (acts : List Action) : Decidable (Wf acts) :=
  decWfOver acts initState []

/-- A run whose two cleanup deletions succeed. -/
def NdfRun (r : ConvRun) : Prop := r.delInOk = true ∧ r.delOutOk = true

/-- An action whose environment never fails a cleanup deletion. -/
def NdfAct : Action → Prop
  | .drop _ runs => ∀ r ∈ runs, NdfRun r
  | _ => True

instance decNdfRun (r : ConvRun) : Decidable (NdfRun r) := by
  unfold NdfRun; infer_instance

instance decNdfAct (a : Action) : Decidable (NdfAct a) := by
  cases a <;> simp only [NdfAct] <;> infer_instance

/-- All file identities mentioned by a list of actions. -/
def idsOf (acts : List Action) : List Nat :=
  (acts.map actIds).flatten

theorem idsOf_cons (a : Action) (rest : List Action) :
    idsOf (a :: rest) = actIds a ++ idsOf rest := rfl

theorem wfOver_append (pre post : List Action) (s : ConverterState) (used : List Nat) :
    WfOver s used (pre ++ post) ↔
      WfOver s used pre ∧ WfOver (pre.foldl step s) (used ++ idsOf pre) post := by
  induction pre generalizing s used with
  | nil => simp [WfOver, idsOf]
  | cons a rest ih =>
      show (WfAct used a ∧ WfOver (step s a) (used ++ actIds a) (rest ++ post)) ↔ _
      rw [ih]
      constructor
      · rintro ⟨h1, h2, h3⟩
        refine ⟨⟨h1, h2⟩, ?_⟩
        rw [idsOf_cons, ← List.append_assoc]
        exact h3
      · rintro ⟨⟨h1, h2⟩, h3⟩
        refine ⟨h1, h2, ?_⟩
        rw [idsOf_cons, ← List.append_assoc] at h3
        exact h3

theorem mem_newJobsOf_ids {s : ConverterState} {files : List (Nat × String)} {f : Nat}
    (h : f ∈ (newJobsOf s files).map (·.file)) : f ∈ actIds (.drop files [])  := by
  rw [newJobsOf_ids] at h
  obtain ⟨p, hp, hpf⟩ := List.mem_map.mp h
  exact List.mem_map.mpr ⟨p, jsSliceTo_subset _ _ hp, hpf⟩

/-- The identities present after one action come from the state before it or
from the action itself. -/
theorem jobIds_step_cov (s : ConverterState) (a : Action) {f : Nat}
    (h : f ∈ jobIds (step s a)) : f ∈ jobIds s ∨ f ∈ actIds a := by
  cases a with
  | drop files runs =>
      by_cases hb : uiBusy s = true
      · simp only [step, hb, if_true] at h
        exact Or.inl h
      · have hb2 : uiBusy s = false := by revert hb; cases uiBusy s <;> simp
        simp only [step, hb2, Bool.false_eq_true, if_false] at h
        rw [onDrop_jobIds] at h
        rcases List.mem_append.mp h with h | h
        · exact Or.inl h
        · exact Or.inr (mem_newJobsOf_ids h)
  | selectFormat fmt =>
      by_cases hb : uiBusy s = true
      · simp only [step, hb, if_true] at h
        exact Or.inl h
      · have hb2 : uiBusy s = false := by revert hb; cases uiBusy s <;> simp
        simp only [step, hb2, Bool.false_eq_true, if_false] at h
        exact Or.inl h
  | reset =>
      simp [step, resetConverter, jobIds] at h

/-- Identity coverage along a trace: every identity in the final state was
in the initial state or mentioned by some action. -/
theorem jobIds_foldl_cov (acts : List Action) (s : ConverterState) (used : List Nat)
    (hcov : ∀ f ∈ jobIds s, f ∈ used) :
    ∀ f ∈ jobIds (acts.foldl step s), f ∈ used ++ idsOf acts := by
  induction acts generalizing s used with
  | nil =>
      intro f hf
      simpa [idsOf] using hcov f hf
  | cons a rest ih =>
      intro f hf
      have h1 : ∀ g ∈ jobIds (step s a), g ∈ used ++ actIds a := by
        intro g hg
        rcases jobIds_step_cov s a hg with h | h
        · exact List.mem_append.mpr (Or.inl (hcov g h))
        · exact List.mem_append.mpr (Or.inr h)
      have := ih (step s a) (used ++ actIds a) h1 f hf
      rw [idsOf_cons, ← List.append_assoc]
      exact this

/-- An identity already consumed never appears in a later wf action. -/
theorem wfOver_future (acts : List Action) (s : ConverterState) (used : List Nat)
    (hwf : WfOver s used acts) {f : Nat} (hf : f ∈ used) :
    ∀ a ∈ acts, f ∉ actIds a := by
  induction acts generalizing s used with
  | nil => simp
  | cons a rest ih =>
      intro b hb
      rcases List.mem_cons.mp hb with hb | hb
      · subst hb
        cases b with
        | drop files runs =>
            intro hmem
            exact hwf.1.2 f hmem hf
        | selectFormat fmt => simp [actIds]
        | reset => simp [actIds]
      · exact ih (step s a) (used ++ actIds a) hwf.2
          (List.mem_append.mpr (Or.inl hf)) b hb

/-- Persistence: a job whose identity was already consumed before the
remaining actions is never modified by them — any entry carrying its
identity in any later state is the job itself, unchanged. -/
theorem persist_foldl (acts : List Action) (s : ConverterState) (used : List Nat)
    (hwf : WfOver s used acts) (j : FileConversion) (hju : j.file ∈ used)
    (hpres : ∀ k ∈ s.uploadedFiles, k.file = j.file → k = j) :
    ∀ k ∈ (acts.foldl step s).uploadedFiles, k.file = j.file → k = j := by
  induction acts generalizing s used with
  | nil => exact hpres
  | cons a rest ih =>
      refine ih (step s a) (used ++ actIds a) hwf.2
        (List.mem_append.mpr (Or.inl hju)) ?_
      cases a with
      | drop files runs =>
          by_cases hb : uiBusy s = true
          · simpa [step, hb] using hpres
          · have hb2 : uiBusy s = false := by revert hb; cases uiBusy s <;> simp
            simp only [step, hb2, Bool.false_eq_true, if_false]
            intro k hk hkf
            rw [onDrop_eq] at hk
            obtain ⟨G, hG, hGoff, hGfile⟩ := processJobs_files_map s.outputFormat
              s.uploadedFiles ((newJobsOf s files).zip
                (padRuns runs (newJobsOf s files).length))
              { s with uploadedFiles := s.uploadedFiles ++ newJobsOf s files }
            rw [hG] at hk
            obtain ⟨fc, hfc, hfck⟩ := List.mem_map.mp hk
            have hfcf : fc.file = j.file := by rw [← hkf, ← hfck, hGfile]
            have hjfresh : j.file ∉ pairIds ((newJobsOf s files).zip
                (padRuns runs (newJobsOf s files).length)) := by
              rw [pairIds_zip _ _ (by rw [padRuns_length])]
              intro hmem
              exact hwf.1.2 j.file (mem_newJobsOf_ids hmem) hju
            rcases List.mem_append.mp hfc with hfc | hfc
            · have : fc = j := hpres fc hfc hfcf
              subst this
              rw [← hfck, hGoff fc (hfcf ▸ hjfresh)]
            · exfalso
              apply hwf.1.2 j.file _ hju
              have : fc.file ∈ (newJobsOf s files).map (·.file) :=
                List.mem_map.mpr ⟨fc, hfc, rfl⟩
              exact hfcf ▸ mem_newJobsOf_ids this
      | selectFormat fmt =>
          by_cases hb : uiBusy s = true
          · simpa [step, hb] using hpres
          · have hb2 : uiBusy s = false := by revert hb; cases uiBusy s <;> simp
            simpa [step, hb2] using hpres
      | reset => simp [step, resetConverter]

end Converter

namespace Converter

/-! ### Terminal exclusivity shape -/

/-- Shape of a job record as a function of its status: the result artifact
is present exactly in status `completed`, the failure reason exactly in
status `error`; non-terminal jobs carry neither.  This shape is an invariant
of all runs in which no cleanup deletion fails. -/
def JobShape (j : FileConversion) : Prop :=
  match j.status with
  | .pending => j.downloadUrl = none ∧ j.error = none
  | .converting => j.downloadUrl = none ∧ j.error = none
  | .completed => j.downloadUrl.isSome = true ∧ j.error = none
  | .error => j.downloadUrl = none ∧ j.error = some "Conversion failed"

theorem processJobs_shape (fmt : String) (snap : List FileConversion)
    (pairs : List (FileConversion × ConvRun)) (s : ConverterState)
    (hn : (jobIds s).Nodup)
    (hsh : ∀ j ∈ s.uploadedFiles, JobShape j)
    (hpnd : (pairIds pairs).Nodup)
    (hpend : ∀ p ∈ pairs, ∀ j ∈ s.uploadedFiles, j.file = p.1.file →
      j.downloadUrl = none ∧ j.error = none)
    (hndf : ∀ p ∈ pairs, NdfRun p.2) :
    ∀ j ∈ (processJobs fmt snap pairs s).uploadedFiles, JobShape j := by
  induction pairs generalizing s with
  | nil => exact hsh
  | cons q rest ih =>
      have hpnd2 : (q.1.file :: pairIds rest).Nodup := hpnd
      have hq : q.1.file ∉ pairIds rest := (List.nodup_cons.mp hpnd2).1
      have hndfq := hndf q (List.mem_cons_self _ _)
      show ∀ j ∈ (processJobs fmt snap rest (convertVideo fmt snap q.1 q.2 s)).uploadedFiles,
        JobShape j
      have hupd : ∀ fc ∈ s.uploadedFiles,
          JobShape (videoUpd s.ffmpegLoaded q.2 q.1.file s.urlCounter fc) := by
        intro fc hfc
        by_cases hf : fc.file = q.1.file
        · obtain ⟨hu, he⟩ := hpend q (List.mem_cons_self _ _) fc hfc hf
          rcases videoUpd_target_shape s.ffmpegLoaded s.urlCounter hf hndfq.1 hndfq.2 with
            hcase | ⟨h1, h2, h3⟩
          · rw [hcase]
            simp [JobShape, he]
          · simp only [JobShape]
            rw [h1, h2, h3, hu]
            exact ⟨rfl, rfl⟩
        · rw [videoUpd_not_target _ _ _ hf]
          exact hsh fc hfc
      refine ih (convertVideo fmt snap q.1 q.2 s) ?_ ?_ (List.nodup_cons.mp hpnd2).2 ?_
        (fun p hp => hndf p (List.mem_cons_of_mem _ hp))
      · rw [convertVideo_jobIds]
        exact hn
      · rw [convertVideo_uploadedFiles]
        intro j hj
        obtain ⟨fc, hfc, hfce⟩ := List.mem_map.mp hj
        rw [← hfce]
        exact hupd fc hfc
      · intro p hp j hj hjf
        rw [convertVideo_uploadedFiles] at hj
        obtain ⟨fc, hfc, hfce⟩ := List.mem_map.mp hj
        have hfcf : fc.file = p.1.file := by
          rw [← hjf, ← hfce, videoUpd_file]
        have hne : fc.file ≠ q.1.file := by
          rw [hfcf]
          intro hcontra
          apply hq
          rw [← hcontra]
          exact List.mem_map.mpr ⟨p, hp, rfl⟩
        rw [← hfce, videoUpd_not_target _ _ _ hne]
        exact hpend p (List.mem_cons_of_mem _ hp) fc hfc hfcf

/-- The shape invariant holds in every state reached by a wf trace whose
environment never fails a cleanup deletion. -/
theorem shape_foldl (acts : List Action) (s : ConverterState) (used : List Nat)
    (hwf : WfOver s used acts) (hndf : ∀ a ∈ acts, NdfAct a)
    (hn : (jobIds s).Nodup) (hsh : ∀ j ∈ s.uploadedFiles, JobShape j)
    (hcov : ∀ f ∈ jobIds s, f ∈ used) :
    (jobIds (acts.foldl step s)).Nodup ∧
      ∀ j ∈ (acts.foldl step s).uploadedFiles, JobShape j := by
  induction acts generalizing s used with
  | nil => exact ⟨hn, hsh⟩
  | cons a rest ih =>
      have hstep : (jobIds (step s a)).Nodup ∧
          (∀ j ∈ (step s a).uploadedFiles, JobShape j) := by
        cases a with
        | drop files runs =>
            by_cases hb : uiBusy s = true
            · simpa [step, hb] using ⟨hn, hsh⟩
            · have hb2 : uiBusy s = false := by revert hb; cases uiBusy s <;> simp
              simp only [step, hb2, Bool.false_eq_true, if_false]
              have hnewids : ((newJobsOf s files).map (·.file)).Nodup := by
                rw [newJobsOf_ids]
                have hsub : List.Sublist ((jsSliceTo files
                    (5 - (s.uploadedFiles.length : Int))).map Prod.fst)
                    (files.map Prod.fst) := by
                  refine List.Sublist.map Prod.fst ?_
                  rw [jsSliceTo]
                  exact List.take_sublist _ _
                exact hsub.nodup hwf.1.1
              have hfreshnew : ∀ f ∈ (newJobsOf s files).map (·.file), f ∉ jobIds s := by
                intro f hf hfs
                exact hwf.1.2 f (mem_newJobsOf_ids hf) (hcov f hfs)
              have hn1 : (jobIds { s with
                  uploadedFiles := s.uploadedFiles ++ newJobsOf s files }).Nodup := by
                simp only [jobIds, List.map_append]
                rw [List.nodup_append]
                exact ⟨hn, hnewids, fun f hf hg => hfreshnew f hg hf⟩
              constructor
              · rw [onDrop_jobIds]
                simpa [jobIds, List.map_append] using hn1
              · rw [onDrop_eq]
                refine processJobs_shape _ _ _ _ hn1 ?_ ?_ ?_ ?_
                · intro j hj
                  rcases List.mem_append.mp hj with hj | hj
                  · exact hsh j hj
                  · obtain ⟨p, _, hpe⟩ := List.mem_map.mp hj
                    rw [← hpe]
                    simp [JobShape, mkPendingJob]
                · rw [pairIds_zip _ _ (by rw [padRuns_length])]
                  exact hnewids
                · intro p hp j hj hjf
                  have hp1 : p.1 ∈ newJobsOf s files := (List.of_mem_zip hp).1
                  have hpid : p.1.file ∈ (newJobsOf s files).map (·.file) :=
                    List.mem_map.mpr ⟨p.1, hp1, rfl⟩
                  rcases List.mem_append.mp hj with hj | hj
                  · exfalso
                    apply hfreshnew p.1.file hpid
                    rw [← hjf]
                    exact List.mem_map.mpr ⟨j, hj, rfl⟩
                  · obtain ⟨q, _, hqe⟩ := List.mem_map.mp hj
                    rw [← hqe]
                    simp [mkPendingJob]
                · intro p hp
                  have hp2 : p.2 ∈ padRuns runs (newJobsOf s files).length :=
                    (List.of_mem_zip hp).2
                  simp only [padRuns, List.mem_map, List.mem_range] at hp2
                  obtain ⟨i, _, hie⟩ := hp2
                  rcases h2 : runs[i]? with _ | x
                  · rw [← hie]
                    simp [List.getD, h2, NdfRun, okRun]
                  · have h2g : runs.get? i = some x := by
                      rw [List.get?_eq_getElem?, h2]
                    have hxr : x ∈ runs := List.get?_mem h2g
                    have hpx : p.2 = x := by
                      rw [← hie]
                      simp [List.getD, h2]
                    rw [hpx]
                    exact hndf (.drop files runs) (List.mem_cons_self _ _) x hxr
        | selectFormat fmt =>
            by_cases hb : uiBusy s = true
            · simpa [step, hb] using ⟨hn, hsh⟩
            · have hb2 : uiBusy s = false := by revert hb; cases uiBusy s <;> simp
              simpa [step, hb2, jobIds] using ⟨hn, hsh⟩
        | reset => simp [step, resetConverter, jobIds]
      have hcov1 : ∀ f ∈ jobIds (step s a), f ∈ used ++ actIds a := by
        intro f hf
        rcases jobIds_step_cov s a hf with h | h
        · exact List.mem_append.mpr (Or.inl (hcov f h))
        · exact List.mem_append.mpr (Or.inr h)
      exact ih (step s a) (used ++ actIds a) hwf.2
        (fun b hb => hndf b (List.mem_cons_of_mem _ hb)) hstep.1 hstep.2 hcov1

end Converter

namespace Converter

/-- C4 (amended): provided the engine's two cleanup deletions never fail
(the only failure mode the counterexample exhibits), every job that has
reached a terminal status carries exactly one of the result artifact and the
failure reason — `completed` jobs hold a download URL and no error,
`failed` jobs hold the fixed generic error and no URL — and the job's
record, terminal status included, never changes for as long as it is
tracked: any entry carrying its identity in any later state of the trace is
the job itself, unchanged. -/
theorem C4_terminal_exclusive_and_stable (acts pre post : List Action)
    (hsplit : acts = pre ++ post) (hwf : Wf acts) (hndf : ∀ a ∈ acts, NdfAct a)
    (j : FileConversion) (hj : j ∈ (execTrace pre).uploadedFiles)
    (hterm : j.status = .completed ∨ j.status = .error) :
    ((j.status = .completed ∧ j.downloadUrl.isSome = true ∧ j.error = none) ∨
      (j.status = .error ∧ j.downloadUrl = none ∧
        j.error = some "Conversion failed")) ∧
    ∀ k ∈ (execTrace acts).uploadedFiles, k.file = j.file → k = j := by
  subst hsplit
  have hwfsplit := (wfOver_append pre post initState []).mp hwf
  have hndfpre : ∀ a ∈ pre, NdfAct a := fun a ha => hndf a (List.mem_append_left _ ha)
  have hshape := shape_foldl pre initState [] hwfsplit.1 hndfpre
    (by simp [jobIds, initState]) (by simp [initState]) (by simp [jobIds, initState])
  have hJ : JobShape j := hshape.2 j hj
  constructor
  · rcases hterm with ht | ht
    · left
      unfold JobShape at hJ
      rw [ht] at hJ
      exact ⟨ht, hJ⟩
    · right
      unfold JobShape at hJ
      rw [ht] at hJ
      exact ⟨ht, hJ⟩
  · have hjid : j.file ∈ idsOf pre := by
      have hmem : j.file ∈ jobIds (pre.foldl step initState) :=
        List.mem_map.mpr ⟨j, hj, rfl⟩
      simpa using jobIds_foldl_cov pre initState [] (by simp [jobIds, initState])
        j.file hmem
    have hpres : ∀ k ∈ (execTrace pre).uploadedFiles, k.file = j.file → k = j := by
      intro k hk hkf
      exact List.inj_on_of_nodup_map hshape.1 hk hj hkf
    have hper := persist_foldl post (execTrace pre) (([] : List Nat) ++ idsOf pre)
      hwfsplit.2 j (by simpa using hjid) hpres
    intro k hk hkf
    apply hper k _ hkf
    rw [execTrace, List.foldl_append] at hk
    exact hk

/-- The record of job 1 after its successful conversion. -/
def jobOneDone : FileConversion :=
  { file := 1, fileName := "a.mkv", status := .completed, progress := 100,
    downloadUrl := some 0, error := none }

/-- Concrete instantiation of the amended C4 theorem: after a first drop
completes job 1, a later drop whose conversion fails (but whose cleanup
deletions succeed) leaves job 1's record untouched. -/
theorem C4_terminal_exclusive_witness :
    Wf [Action.drop [(1, "a.mkv")] [okRun], Action.drop [(2, "b.mkv")] [execFailRun]] ∧
    (∀ a ∈ [Action.drop [(1, "a.mkv")] [okRun],
        Action.drop [(2, "b.mkv")] [execFailRun]], NdfAct a) ∧
    jobOneDone ∈ (execTrace [Action.drop [(1, "a.mkv")] [okRun]]).uploadedFiles ∧
    (((jobOneDone.status = .completed ∧ jobOneDone.downloadUrl.isSome = true ∧
        jobOneDone.error = none) ∨
      (jobOneDone.status = .error ∧ jobOneDone.downloadUrl = none ∧
        jobOneDone.error = some "Conversion failed")) ∧
      ∀ k ∈ (execTrace [Action.drop [(1, "a.mkv")] [okRun],
          Action.drop [(2, "b.mkv")] [execFailRun]]).uploadedFiles,
        k.file = jobOneDone.file → k = jobOneDone) :=
  ⟨by decide, by decide, by decide,
    C4_terminal_exclusive_and_stable
      [Action.drop [(1, "a.mkv")] [okRun], Action.drop [(2, "b.mkv")] [execFailRun]]
      [Action.drop [(1, "a.mkv")] [okRun]]
      [Action.drop [(2, "b.mkv")] [execFailRun]]
      rfl (by decide) (by decide) jobOneDone (by decide) (Or.inl rfl)⟩

end Converter

namespace Converter

/-- The generic failure text is the only error text the loop can ever
write: every job's `error` field is `none` or the fixed string. -/
theorem processJobs_error_generic (fmt : String) (snap : List FileConversion)
    (pairs : List (FileConversion × ConvRun)) (s : ConverterState)
    (h : ∀ j ∈ s.uploadedFiles, j.error = none ∨ j.error = some "Conversion failed") :
    ∀ j ∈ (processJobs fmt snap pairs s).uploadedFiles,
      j.error = none ∨ j.error = some "Conversion failed" := by
  induction pairs generalizing s with
  | nil => exact h
  | cons q rest ih =>
      refine ih (convertVideo fmt snap q.1 q.2 s) ?_
      rw [convertVideo_uploadedFiles]
      intro j hj
      obtain ⟨fc, hfc, hfce⟩ := List.mem_map.mp hj
      rcases videoUpd_error_field s.ffmpegLoaded q.2 q.1.file s.urlCounter fc with he | he
      · rw [← hfce, he]
        exact h fc hfc
      · rw [← hfce]
        exact Or.inr he

/-- C5: a conversion failure is local to the failing job.  When no engine
load fails, each job of a drop ends `completed` exactly when its own five
post-initialisation operations succeed, and otherwise ends `Failed` with
the fixed generic reason "Conversion failed" — in particular a failing job
neither aborts nor affects the jobs dropped after it, which are still
driven to their own terminal status.  Moreover no job, old or new, ever
carries any error text other than the generic message: the engine's raw
error text is never stored in user-visible job state. -/
theorem C5_failure_local_generic_and_rest_processed (s : ConverterState)
    (files : List (Nat × String)) (runs : List ConvRun)
    (hfnd : (files.map Prod.fst).Nodup)
    (hload : ∀ r ∈ padRuns runs (newJobsOf s files).length, r.loadOk = true)
    (herr : ∀ j ∈ s.uploadedFiles,
      j.error = none ∨ j.error = some "Conversion failed") :
    (∀ p ∈ (newJobsOf s files).zip (padRuns runs (newJobsOf s files).length),
      ∀ k ∈ (onDrop files runs s).uploadedFiles, k.file = p.1.file →
        (restOk p.2 = true → k.status = .completed) ∧
        (restOk p.2 = false → k.status = .error ∧
          k.error = some "Conversion failed")) ∧
    (∀ k ∈ (onDrop files runs s).uploadedFiles,
      k.error = none ∨ k.error = some "Conversion failed") := by
  have hnewids : ((newJobsOf s files).map (·.file)).Nodup := by
    rw [newJobsOf_ids]
    have hsub : List.Sublist ((jsSliceTo files
        (5 - (s.uploadedFiles.length : Int))).map Prod.fst) (files.map Prod.fst) := by
      refine List.Sublist.map Prod.fst ?_
      rw [jsSliceTo]
      exact List.take_sublist _ _
    exact hsub.nodup hfnd
  have hpnd : (pairIds ((newJobsOf s files).zip
      (padRuns runs (newJobsOf s files).length))).Nodup := by
    rw [pairIds_zip _ _ (by rw [padRuns_length])]
    exact hnewids
  constructor
  · rw [onDrop_eq]
    exact processJobs_target_run _ _ _ _ hpnd
      (fun p hp => hload p.2 (List.of_mem_zip hp).2)
  · rw [onDrop_eq]
    refine processJobs_error_generic _ _ _ _ ?_
    intro j hj
    rcases List.mem_append.mp hj with hj | hj
    · exact herr j hj
    · obtain ⟨q, _, hqe⟩ := List.mem_map.mp hj
      rw [← hqe]
      exact Or.inl rfl

/-- Concrete instantiation of C5 (E2E scenario 3): three files dropped on a
fresh component, the engine fails the second conversion; jobs 1 and 3 still
complete, job 2 is failed with the generic reason. -/
theorem C5_failure_local_witness :
    ([( 1, "a.mkv"), (2, "b.mkv"), (3, "c.mkv")].map Prod.fst).Nodup ∧
    (∀ r ∈ padRuns [okRun, execFailRun, okRun]
        (newJobsOf initState [(1, "a.mkv"), (2, "b.mkv"), (3, "c.mkv")]).length,
      r.loadOk = true) ∧
    ((∀ p ∈ (newJobsOf initState [(1, "a.mkv"), (2, "b.mkv"), (3, "c.mkv")]).zip
        (padRuns [okRun, execFailRun, okRun]
          (newJobsOf initState [(1, "a.mkv"), (2, "b.mkv"), (3, "c.mkv")]).length),
      ∀ k ∈ (onDrop [(1, "a.mkv"), (2, "b.mkv"), (3, "c.mkv")]
          [okRun, execFailRun, okRun] initState).uploadedFiles, k.file = p.1.file →
        (restOk p.2 = true → k.status = .completed) ∧
        (restOk p.2 = false → k.status = .error ∧
          k.error = some "Conversion failed")) ∧
      (∀ k ∈ (onDrop [(1, "a.mkv"), (2, "b.mkv"), (3, "c.mkv")]
          [okRun, execFailRun, okRun] initState).uploadedFiles,
        k.error = none ∨ k.error = some "Conversion failed")) ∧
    ((onDrop [(1, "a.mkv"), (2, "b.mkv"), (3, "c.mkv")]
        [okRun, execFailRun, okRun] initState).uploadedFiles.map (·.status)) =
      [.completed, .error, .completed] :=
  ⟨by decide, by decide,
    C5_failure_local_generic_and_rest_processed initState
      [(1, "a.mkv"), (2, "b.mkv"), (3, "c.mkv")] [okRun, execFailRun, okRun]
      (by decide) (by decide) (by decide),
    by decide⟩

end Converter

namespace Converter

/-- C6: the hard queue-size cap.  No reachable state tracks more than 5
jobs; a submission of `k` files arriving when `n` jobs are tracked creates
exactly `min k (5 - n)` new `Pending` jobs, appended in input order, and
the excess files beyond the first `5 - n` are never enqueued: no job with
their identity exists after the drop (so they are neither processed nor
reported as failed). -/
theorem C6_capacity_cap (acts : List Action) (files : List (Nat × String))
    (runs : List ConvRun) (hwf : Wf (acts ++ [Action.drop files runs])) :
    (execTrace acts).uploadedFiles.length ≤ 5 ∧
    (execTrace (acts ++ [Action.drop files runs])).uploadedFiles.length ≤ 5 ∧
    (uiBusy (execTrace acts) = false →
      newJobsOf (execTrace acts) files =
        (files.take (5 - (execTrace acts).uploadedFiles.length)).map mkPendingJob ∧
      (newJobsOf (execTrace acts) files).length =
        min files.length (5 - (execTrace acts).uploadedFiles.length) ∧
      (∀ j ∈ newJobsOf (execTrace acts) files, j.status = .pending) ∧
      (execTrace (acts ++ [Action.drop files runs])).uploadedFiles.length =
        (execTrace acts).uploadedFiles.length +
          min files.length (5 - (execTrace acts).uploadedFiles.length) ∧
      (∀ fid ∈ (files.drop (5 - (execTrace acts).uploadedFiles.length)).map Prod.fst,
        fid ∉ jobIds (execTrace (acts ++ [Action.drop files runs])))) := by
  have hn5 := execTrace_length_le acts
  have hstepeq : execTrace (acts ++ [Action.drop files runs]) =
      step (execTrace acts) (Action.drop files runs) := by
    rw [execTrace, List.foldl_append]
    rfl
  have hwfsplit := (wfOver_append acts [Action.drop files runs] initState []).mp hwf
  have hwfdrop : WfAct (([] : List Nat) ++ idsOf acts) (Action.drop files runs) :=
    hwfsplit.2.1
  refine ⟨hn5, ?_, ?_⟩
  · rw [hstepeq]
    exact step_length_le _ _ hn5
  intro hbusy
  set s := execTrace acts with hs
  have he : (0 : Int) ≤ 5 - (s.uploadedFiles.length : Int) := by omega
  have htoNat : (5 - (s.uploadedFiles.length : Int)).toNat =
      5 - s.uploadedFiles.length := by omega
  have hslice : jsSliceTo files (5 - (s.uploadedFiles.length : Int)) =
      files.take (5 - s.uploadedFiles.length) := by
    rw [jsSliceTo_nonneg _ _ he, htoNat]
  have hnew : newJobsOf s files =
      (files.take (5 - s.uploadedFiles.length)).map mkPendingJob := by
    rw [newJobsOf, hslice]
  have hlen : (newJobsOf s files).length =
      min files.length (5 - s.uploadedFiles.length) := by
    rw [hnew]
    simp [Nat.min_comm]
  have hdropstep : step s (Action.drop files runs) = onDrop files runs s := by
    simp [step, hbusy]
  refine ⟨hnew, hlen, ?_, ?_, ?_⟩
  · intro j hj
    rw [hnew] at hj
    obtain ⟨p, _, hpe⟩ := List.mem_map.mp hj
    rw [← hpe]
    rfl
  · rw [hstepeq, hdropstep, onDrop_eq, processJobs_length]
    simp only [List.length_append, newJobsOf, List.length_map]
    rw [hslice]
    simp [Nat.min_comm]
  · intro fid hfid
    rw [hstepeq, hdropstep, onDrop_jobIds]
    intro hmem
    rcases List.mem_append.mp hmem with hmem | hmem
    · -- the excess identity would have to be already tracked, but every
      -- identity of the drop is fresh with respect to the whole prefix
      have hcov := jobIds_foldl_cov acts initState []
        (by simp [jobIds, initState]) fid hmem
      apply hwfdrop.2 fid _ (by simpa using hcov)
      obtain ⟨p, hp, hpe⟩ := List.mem_map.mp hfid
      exact List.mem_map.mpr ⟨p, List.drop_subset _ _ hp, hpe⟩
    · -- or appear among the first 5 - n files, contradicting Nodup
      rw [hnew] at hmem
      obtain ⟨q, hq, hqe⟩ := List.mem_map.mp hmem
      obtain ⟨pq, hpq, hpqe⟩ := List.mem_map.mp hq
      obtain ⟨p, hp, hpe⟩ := List.mem_map.mp hfid
      have hnd2 : ((files.take (5 - s.uploadedFiles.length)).map Prod.fst ++
          (files.drop (5 - s.uploadedFiles.length)).map Prod.fst).Nodup := by
        rw [← List.map_append, List.take_append_drop]
        exact hwfdrop.1
      have hfid1 : fid ∈ (files.take (5 - s.uploadedFiles.length)).map Prod.fst := by
        refine List.mem_map.mpr ⟨pq, hpq, ?_⟩
        rw [← hqe, ← hpqe]
        rfl
      have hfid2 : fid ∈ (files.drop (5 - s.uploadedFiles.length)).map Prod.fst :=
        List.mem_map.mpr ⟨p, hp, hpe⟩
      exact (List.disjoint_of_nodup_append hnd2) hfid1 hfid2

/-- Concrete instantiation of C6: three jobs tracked, then a four-file drop
adds exactly two jobs; the two excess files never appear. -/
theorem C6_capacity_witness :
    Wf [Action.drop [(1, "a.mkv"), (2, "b.mkv"), (3, "c.mkv")] [okRun, okRun, okRun],
        Action.drop [(4, "d.mkv"), (5, "e.mkv"), (6, "f.mkv"), (7, "g.mkv")] []] ∧
    ((execTrace [Action.drop [(1, "a.mkv"), (2, "b.mkv"), (3, "c.mkv")]
        [okRun, okRun, okRun]]).uploadedFiles.length ≤ 5 ∧
      (execTrace [Action.drop [(1, "a.mkv"), (2, "b.mkv"), (3, "c.mkv")]
          [okRun, okRun, okRun],
        Action.drop [(4, "d.mkv"), (5, "e.mkv"), (6, "f.mkv"), (7, "g.mkv")]
          []]).uploadedFiles.length ≤ 5 ∧
      (uiBusy (execTrace [Action.drop [(1, "a.mkv"), (2, "b.mkv"), (3, "c.mkv")]
          [okRun, okRun, okRun]]) = false →
        newJobsOf (execTrace [Action.drop [(1, "a.mkv"), (2, "b.mkv"), (3, "c.mkv")]
            [okRun, okRun, okRun]])
            [(4, "d.mkv"), (5, "e.mkv"), (6, "f.mkv"), (7, "g.mkv")] =
          ([(4, "d.mkv"), (5, "e.mkv"), (6, "f.mkv"), (7, "g.mkv")].take
            (5 - (execTrace [Action.drop [(1, "a.mkv"), (2, "b.mkv"), (3, "c.mkv")]
              [okRun, okRun, okRun]]).uploadedFiles.length)).map mkPendingJob ∧
        (newJobsOf (execTrace [Action.drop [(1, "a.mkv"), (2, "b.mkv"), (3, "c.mkv")]
            [okRun, okRun, okRun]])
            [(4, "d.mkv"), (5, "e.mkv"), (6, "f.mkv"), (7, "g.mkv")]).length =
          min 4 (5 - (execTrace [Action.drop [(1, "a.mkv"), (2, "b.mkv"), (3, "c.mkv")]
            [okRun, okRun, okRun]]).uploadedFiles.length) ∧
        (∀ j ∈ newJobsOf (execTrace [Action.drop [(1, "a.mkv"), (2, "b.mkv"),
            (3, "c.mkv")] [okRun, okRun, okRun]])
            [(4, "d.mkv"), (5, "e.mkv"), (6, "f.mkv"), (7, "g.mkv")],
          j.status = .pending) ∧
        (execTrace [Action.drop [(1, "a.mkv"), (2, "b.mkv"), (3, "c.mkv")]
            [okRun, okRun, okRun],
          Action.drop [(4, "d.mkv"), (5, "e.mkv"), (6, "f.mkv"), (7, "g.mkv")]
            []]).uploadedFiles.length =
          (execTrace [Action.drop [(1, "a.mkv"), (2, "b.mkv"), (3, "c.mkv")]
            [okRun, okRun, okRun]]).uploadedFiles.length +
          min 4 (5 - (execTrace [Action.drop [(1, "a.mkv"), (2, "b.mkv"), (3, "c.mkv")]
            [okRun, okRun, okRun]]).uploadedFiles.length) ∧
        (∀ fid ∈ ([(4, "d.mkv"), (5, "e.mkv"), (6, "f.mkv"), (7, "g.mkv")].drop
            (5 - (execTrace [Action.drop [(1, "a.mkv"), (2, "b.mkv"), (3, "c.mkv")]
              [okRun, okRun, okRun]]).uploadedFiles.length)).map Prod.fst,
          fid ∉ jobIds (execTrace [Action.drop [(1, "a.mkv"), (2, "b.mkv"), (3, "c.mkv")]
              [okRun, okRun, okRun],
            Action.drop [(4, "d.mkv"), (5, "e.mkv"), (6, "f.mkv"), (7, "g.mkv")] []])))) :=
  ⟨by decide,
    C6_capacity_cap [Action.drop [(1, "a.mkv"), (2, "b.mkv"), (3, "c.mkv")]
        [okRun, okRun, okRun]]
      [(4, "d.mkv"), (5, "e.mkv"), (6, "f.mkv"), (7, "g.mkv")] []
      (by decide)⟩

end Converter

namespace Converter

/-- Every argv the loop passes to the engine is `buildArgs` applied to the
closure-captured format and the constructed entry names. -/
theorem processJobs_execLog_mem (fmt : String) (snap : List FileConversion)
    (pairs : List (FileConversion × ConvRun)) (s : ConverterState) :
    ∀ a ∈ (processJobs fmt snap pairs s).execLog, a ∈ s.execLog ∨
      ∃ p ∈ pairs, a = buildArgs fmt (inputEntryName p.2.t1 p.1.fileName)
        (outputEntryName p.2.t2 fmt) := by
  induction pairs generalizing s with
  | nil =>
      intro a ha
      exact Or.inl ha
  | cons q rest ih =>
      intro a ha
      rcases ih (convertVideo fmt snap q.1 q.2 s) a ha with h | ⟨p, hp, hpe⟩
      · rw [convertVideo_execLog] at h
        by_cases hc : ((s.ffmpegLoaded || q.2.loadOk) && q.2.writeOk) = true
        · rw [if_pos hc] at h
          rcases List.mem_append.mp h with h | h
          · exact Or.inl h
          · refine Or.inr ⟨q, List.mem_cons_self _ _, ?_⟩
            simpa using h
        · rw [if_neg hc] at h
          exact Or.inl h
      · exact Or.inr ⟨p, List.mem_cons_of_mem _ hp, hpe⟩

/-- The argv list `a` contains the element `x` immediately followed by `y`. -/
def containsAdjacent (x y : String) (a : List String) : Prop :=
  ∃ l1 l2, a = l1 ++ x :: y :: l2

theorem inputEntryName_ne_copy (t1 : Nat) (n : String) :
    inputEntryName t1 n ≠ "copy" := by
  intro h
  have hlen := congrArg String.length h
  have h6 : ("input_" : String).length = 6 := rfl
  have h4 : ("copy" : String).length = 4 := rfl
  have h1 : ("." : String).length = 1 := rfl
  rw [inputEntryName, String.length_append, String.length_append,
    String.length_append, h6, h1, h4] at hlen
  omega

theorem outputEntryName_ne_copy (t2 : Nat) (fmt : String) :
    outputEntryName t2 fmt ≠ "copy" := by
  intro h
  have hlen := congrArg String.length h
  have h7 : ("output_" : String).length = 7 := rfl
  have h4 : ("copy" : String).length = 4 := rfl
  have h1 : ("." : String).length = 1 := rfl
  rw [outputEntryName, String.length_append, String.length_append,
    String.length_append, h7, h1, h4] at hlen
  omega

theorem buildArgs_non_gif (fmt inName outName : String) (h : fmt ≠ "gif") :
    buildArgs fmt inName outName =
      ["-i", inName, "-c", "copy", "-movflags", "+faststart", outName] := by
  simp [buildArgs, h]

theorem buildArgs_gif (inName outName : String) :
    buildArgs "gif" inName outName = ["-i", inName, "-c", "+faststart", outName] := by
  rfl

/-- C7: the engine command is built by an explicit two-way branch on the
target format.  Every argv a drop passes to the engine satisfies: for every
non-gif format it contains the stream-copy codec option (`-c` immediately
followed by `copy`) and the `-movflags +faststart` flag pair, and for the
gif format it contains no `copy` element at all. -/
theorem C7_gif_branch_no_stream_copy (files : List (Nat × String))
    (runs : List ConvRun) (s : ConverterState) :
    ∀ a ∈ (onDrop files runs s).execLog, a ∈ s.execLog ∨
      (if s.outputFormat = "gif" then "copy" ∉ a
       else containsAdjacent "-c" "copy" a ∧
         containsAdjacent "-movflags" "+faststart" a) := by
  intro a ha
  rw [onDrop_eq] at ha
  rcases processJobs_execLog_mem _ _ _ _ a ha with h | ⟨p, _, hpe⟩
  · exact Or.inl h
  right
  by_cases hfmt : s.outputFormat = "gif"
  · rw [if_pos hfmt]
    rw [hpe, hfmt, buildArgs_gif]
    intro hmem
    simp only [List.mem_cons, List.not_mem_nil, or_false] at hmem
    rcases hmem with h | h | h | h | h
    · exact absurd h.symm (by decide)
    · exact inputEntryName_ne_copy _ _ h.symm
    · exact absurd h.symm (by decide)
    · exact absurd h.symm (by decide)
    · exact outputEntryName_ne_copy _ _ h.symm
  · rw [if_neg hfmt]
    rw [hpe, buildArgs_non_gif _ _ _ hfmt]
    constructor
    · exact ⟨["-i", inputEntryName p.2.t1 p.1.fileName],
        ["-movflags", "+faststart", outputEntryName p.2.t2 s.outputFormat], rfl⟩
    · exact ⟨["-i", inputEntryName p.2.t1 p.1.fileName, "-c", "copy"],
        [outputEntryName p.2.t2 s.outputFormat], rfl⟩

/-- Concrete instantiation of C7: a gif drop and an mp4 drop on a fresh
component. -/
theorem C7_gif_branch_witness :
    (∀ a ∈ (onDrop [(1, "a.mkv")] [okRun]
        { initState with outputFormat := "gif" }).execLog,
      a ∈ ({ initState with outputFormat := "gif" } : ConverterState).execLog ∨
      (if ({ initState with outputFormat := "gif" } : ConverterState).outputFormat
          = "gif" then "copy" ∉ a
       else containsAdjacent "-c" "copy" a ∧
         containsAdjacent "-movflags" "+faststart" a)) ∧
    (onDrop [(1, "a.mkv")] [okRun]
      { initState with outputFormat := "gif" }).execLog =
      [["-i", "input_0.mkv", "-c", "+faststart", "output_0.gif"]] ∧
    (onDrop [(2, "b.mkv")] [okRun] initState).execLog =
      [["-i", "input_0.mkv", "-c", "copy", "-movflags", "+faststart",
        "output_0.mp4"]] :=
  ⟨C7_gif_branch_no_stream_copy [(1, "a.mkv")] [okRun]
      { initState with outputFormat := "gif" },
    by decide, by decide⟩

/-- C10: for a gif conversion the argv actually passed to the engine is
exactly `['-i', inputName, '-c', '+faststart', outputName]` — the
`splice(3, 2)` removes the elements at indices 3 and 4, which are the codec
value and the `'-movflags'` option name, so `'-c'` remains (now followed by
`'+faststart'`) and no `'-movflags'` element is present.  The first
conjunct states this at the `convertVideo` level: whenever the input write
is reached and succeeds, the exec log grows by exactly that argv. -/
theorem C10_gif_argv_exact (snap : List FileConversion) (job : FileConversion)
    (r : ConvRun) (s : ConverterState) (hload : s.ffmpegLoaded = true)
    (hw : r.writeOk = true) :
    (convertVideo "gif" snap job r s).execLog =
      s.execLog ++ [["-i", inputEntryName r.t1 job.fileName, "-c", "+faststart",
        outputEntryName r.t2 "gif"]] ∧
    (∀ inName outName : String,
      buildArgs "gif" inName outName =
        spliceRemove ["-i", inName, "-c", "gif", "-movflags", "+faststart", outName]
          3 2 ∧
      buildArgs "gif" inName outName = ["-i", inName, "-c", "+faststart", outName]) := by
  constructor
  · rw [convertVideo_execLog, hload, hw]
    simp [buildArgs_gif]
  · intro inName outName
    exact ⟨by simp [buildArgs], rfl⟩

/-- Concrete instantiation of C10. -/
theorem C10_gif_argv_witness :
    ({ initState with ffmpegLoaded := true } : ConverterState).ffmpegLoaded = true ∧
    okRun.writeOk = true ∧
    (convertVideo "gif" [] (mkPendingJob (1, "a.mkv")) okRun
        { initState with ffmpegLoaded := true }).execLog =
      ({ initState with ffmpegLoaded := true } : ConverterState).execLog ++
        [["-i", inputEntryName okRun.t1 (mkPendingJob (1, "a.mkv")).fileName, "-c",
          "+faststart", outputEntryName okRun.t2 "gif"]] ∧
    (∀ inName outName : String,
      buildArgs "gif" inName outName =
        spliceRemove ["-i", inName, "-c", "gif", "-movflags", "+faststart", outName]
          3 2 ∧
      buildArgs "gif" inName outName = ["-i", inName, "-c", "+faststart", outName]) :=
  ⟨rfl, rfl,
    (C10_gif_argv_exact [] (mkPendingJob (1, "a.mkv")) okRun
      { initState with ffmpegLoaded := true } rfl rfl).1,
    (C10_gif_argv_exact [] (mkPendingJob (1, "a.mkv")) okRun
      { initState with ffmpegLoaded := true } rfl rfl).2⟩

end Converter

namespace Converter

theorem mem_newJobsOf_pending (s : ConverterState) (files : List (Nat × String)) :
    ∀ j ∈ newJobsOf s files, j.status = .pending := by
  intro j hj
  obtain ⟨p, _, hpe⟩ := List.mem_map.mp hj
  rw [← hpe]
  rfl

theorem newJobsOf_nodup_ids (s : ConverterState) (files : List (Nat × String))
    (hfnd : (files.map Prod.fst).Nodup) :
    ((newJobsOf s files).map (·.file)).Nodup := by
  rw [newJobsOf_ids]
  have hsub : List.Sublist ((jsSliceTo files
      (5 - (s.uploadedFiles.length : Int))).map Prod.fst) (files.map Prod.fst) := by
    refine List.Sublist.map Prod.fst ?_
    rw [jsSliceTo]
    exact List.take_sublist _ _
  exact hsub.nodup hfnd

theorem appended_nodup_ids (s : ConverterState) (files : List (Nat × String))
    (hn : (jobIds s).Nodup) (hfnd : (files.map Prod.fst).Nodup)
    (hfresh : ∀ f ∈ files.map Prod.fst, f ∉ jobIds s) :
    (jobIds { s with uploadedFiles := s.uploadedFiles ++ newJobsOf s files }).Nodup := by
  simp only [jobIds, List.map_append]
  rw [List.nodup_append]
  refine ⟨hn, newJobsOf_nodup_ids s files hfnd, ?_⟩
  intro f hf hg
  obtain ⟨p, hp, hpe⟩ := List.mem_map.mp hg
  have : f ∈ files.map Prod.fst := by
    rw [newJobsOf] at hp
    obtain ⟨q, hq, hqe⟩ := List.mem_map.mp hp
    refine List.mem_map.mpr ⟨q, jsSliceTo_subset _ _ hq, ?_⟩
    rw [← hpe, ← hqe]
    rfl
  exact hfresh f this hf

/-- The state of the component after the sequential loop of a drop has
converted the first `i` of the batch's jobs (the loop at source lines
222-225 processes one job per iteration). -/
def dropMid (s : ConverterState) (files : List (Nat × String)) (runs : List ConvRun)
    (i : Nat) : ConverterState :=
  processJobs s.outputFormat s.uploadedFiles
    (((newJobsOf s files).zip (padRuns runs (newJobsOf s files).length)).take i)
    { s with uploadedFiles := s.uploadedFiles ++ newJobsOf s files }

theorem dropMid_full (s : ConverterState) (files : List (Nat × String))
    (runs : List ConvRun) :
    onDrop files runs s = dropMid s files runs (newJobsOf s files).length := by
  rw [onDrop_eq, dropMid, List.take_of_length_le]
  rw [List.length_zip, padRuns_length]
  omega

/-- C8: a batch is processed strictly one job at a time in submission
order.  After the loop has finished its first `i` iterations, every job of
the processed prefix has a terminal status, while every job of the
unprocessed suffix is still exactly its freshly created `Pending` record;
the last loop state is the state produced by the whole drop.  In
particular Job K leaves `Pending` only during iteration K, when Jobs
1..K-1 are already terminal, so jobs reach their terminal statuses in
submission order. -/
theorem C8_sequential_in_submission_order (s : ConverterState)
    (files : List (Nat × String)) (runs : List ConvRun)
    (hn : (jobIds s).Nodup) (hfnd : (files.map Prod.fst).Nodup)
    (hfresh : ∀ f ∈ files.map Prod.fst, f ∉ jobIds s) :
    (onDrop files runs s = dropMid s files runs (newJobsOf s files).length) ∧
    ∀ i ≤ (newJobsOf s files).length,
      (∀ p ∈ ((newJobsOf s files).zip
          (padRuns runs (newJobsOf s files).length)).take i,
        ∀ k ∈ (dropMid s files runs i).uploadedFiles, k.file = p.1.file →
          k.status = .completed ∨ k.status = .error) ∧
      (∀ p ∈ ((newJobsOf s files).zip
          (padRuns runs (newJobsOf s files).length)).drop i,
        p.1 ∈ (dropMid s files runs i).uploadedFiles ∧ p.1.status = .pending ∧
        ∀ k ∈ (dropMid s files runs i).uploadedFiles, k.file = p.1.file → k = p.1) := by
  have hnewids := newJobsOf_nodup_ids s files hfnd
  have hpnd : (pairIds ((newJobsOf s files).zip
      (padRuns runs (newJobsOf s files).length))).Nodup := by
    rw [pairIds_zip _ _ (by rw [padRuns_length])]
    exact hnewids
  have hn1 := appended_nodup_ids s files hn hfnd hfresh
  refine ⟨dropMid_full s files runs, ?_⟩
  intro i _
  have hdisj : ∀ f ∈ pairIds (((newJobsOf s files).zip
      (padRuns runs (newJobsOf s files).length)).take i),
      f ∉ pairIds (((newJobsOf s files).zip
        (padRuns runs (newJobsOf s files).length)).drop i) := by
    have hsplit : pairIds (((newJobsOf s files).zip
        (padRuns runs (newJobsOf s files).length)).take i) ++
        pairIds (((newJobsOf s files).zip
          (padRuns runs (newJobsOf s files).length)).drop i) =
        pairIds ((newJobsOf s files).zip
          (padRuns runs (newJobsOf s files).length)) := by
      rw [pairIds, pairIds, pairIds, ← List.map_append, List.take_append_drop]
    have hnd2 := hsplit ▸ hpnd
    exact fun f hf => List.disjoint_of_nodup_append hnd2 hf
  constructor
  · refine processJobs_target_terminal _ _ _ _ ?_
    have : pairIds (((newJobsOf s files).zip
        (padRuns runs (newJobsOf s files).length)).take i) =
        (pairIds ((newJobsOf s files).zip
          (padRuns runs (newJobsOf s files).length))).take i := by
      rw [pairIds, pairIds, List.map_take]
    rw [this]
    exact (List.take_sublist _ _).nodup hpnd
  · intro p hp
    have hpmem : p ∈ (newJobsOf s files).zip
        (padRuns runs (newJobsOf s files).length) := List.drop_subset _ _ hp
    have hp1 : p.1 ∈ newJobsOf s files := (List.of_mem_zip hpmem).1
    have hpid : p.1.file ∈ pairIds (((newJobsOf s files).zip
        (padRuns runs (newJobsOf s files).length)).drop i) :=
      List.mem_map.mpr ⟨p, hp, rfl⟩
    have hnotin : p.1.file ∉ pairIds (((newJobsOf s files).zip
        (padRuns runs (newJobsOf s files).length)).take i) := by
      intro hmem
      exact hdisj _ hmem hpid
    have hp1s1 : p.1 ∈ ({ s with
        uploadedFiles := s.uploadedFiles ++ newJobsOf s files } :
          ConverterState).uploadedFiles :=
      List.mem_append.mpr (Or.inr hp1)
    refine ⟨processJobs_untouched _ _ _ _ hp1s1 hnotin,
      mem_newJobsOf_pending s files p.1 hp1, ?_⟩
    exact processJobs_entry_eq _ _ _ _ hn1 hp1s1 hnotin

/-- Concrete instantiation of C8: two files on a fresh component; after one
loop iteration job 1 is terminal and job 2 still pending; after both, the
state is the drop's result. -/
theorem C8_sequential_witness :
    (jobIds initState).Nodup ∧
    (([(1, "a.mkv"), (2, "b.mkv")].map Prod.fst).Nodup) ∧
    ((dropMid initState [(1, "a.mkv"), (2, "b.mkv")] [okRun, okRun]
        1).uploadedFiles.map (·.status) = [.completed, .pending]) ∧
    (onDrop [(1, "a.mkv"), (2, "b.mkv")] [okRun, okRun] initState =
      dropMid initState [(1, "a.mkv"), (2, "b.mkv")] [okRun, okRun]
        (newJobsOf initState [(1, "a.mkv"), (2, "b.mkv")]).length) ∧
    ∀ i ≤ (newJobsOf initState [(1, "a.mkv"), (2, "b.mkv")]).length,
      (∀ p ∈ ((newJobsOf initState [(1, "a.mkv"), (2, "b.mkv")]).zip
          (padRuns [okRun, okRun]
            (newJobsOf initState [(1, "a.mkv"), (2, "b.mkv")]).length)).take i,
        ∀ k ∈ (dropMid initState [(1, "a.mkv"), (2, "b.mkv")] [okRun, okRun]
            i).uploadedFiles, k.file = p.1.file →
          k.status = .completed ∨ k.status = .error) ∧
      (∀ p ∈ ((newJobsOf initState [(1, "a.mkv"), (2, "b.mkv")]).zip
          (padRuns [okRun, okRun]
            (newJobsOf initState [(1, "a.mkv"), (2, "b.mkv")]).length)).drop i,
        p.1 ∈ (dropMid initState [(1, "a.mkv"), (2, "b.mkv")] [okRun, okRun]
          i).uploadedFiles ∧ p.1.status = .pending ∧
        ∀ k ∈ (dropMid initState [(1, "a.mkv"), (2, "b.mkv")] [okRun, okRun]
            i).uploadedFiles, k.file = p.1.file → k = p.1) :=
  ⟨by decide, by decide, by decide,
    (C8_sequential_in_submission_order initState [(1, "a.mkv"), (2, "b.mkv")]
      [okRun, okRun] (by decide) (by decide) (by decide)).1,
    (C8_sequential_in_submission_order initState [(1, "a.mkv"), (2, "b.mkv")]
      [okRun, okRun] (by decide) (by decide) (by decide)).2⟩

end Converter

namespace Converter

/-! ### Held download URLs -/

/-- The object URLs currently held by jobs (the `downloadUrl` fields). -/
def heldUrls (s : ConverterState) : List Nat :=
  s.uploadedFiles.filterMap (·.downloadUrl)

/-- Invariant on object URLs: held URLs are pairwise distinct, below the
allocation counter, and not yet revoked; revoked URLs are below the
counter. -/
def UrlInv (s : ConverterState) : Prop :=
  (heldUrls s).Nodup ∧
  (∀ u ∈ heldUrls s, u < s.urlCounter ∧ u ∉ s.revoked) ∧
  (∀ u ∈ s.revoked, u < s.urlCounter)

theorem filterMap_update_nodup (l : List FileConversion)
    (g : FileConversion → FileConversion) (f c : Nat)
    (hurl : ∀ fc, (g fc).downloadUrl = fc.downloadUrl ∨
      ((g fc).downloadUrl = some c ∧ fc.file = f))
    (hids : (l.map (·.file)).Nodup)
    (hnd : (l.filterMap (·.downloadUrl)).Nodup)
    (hlt : ∀ u ∈ l.filterMap (·.downloadUrl), u < c) :
    ((l.map g).filterMap (·.downloadUrl)).Nodup ∧
    (∀ u ∈ (l.map g).filterMap (·.downloadUrl),
      u ∈ l.filterMap (·.downloadUrl) ∨ (u = c ∧ f ∈ l.map (·.file))) := by
  induction l with
  | nil => simp
  | cons fc t ih =>
      have hids' : (t.map (·.file)).Nodup := (List.nodup_cons.mp hids).2
      have hfcnot : fc.file ∉ t.map (·.file) := (List.nodup_cons.mp hids).1
      have htnd : (t.filterMap (·.downloadUrl)).Nodup := by
        rcases h : fc.downloadUrl with _ | u
        · simpa [List.filterMap_cons, h] using hnd
        · exact (List.nodup_cons.mp (by simpa [List.filterMap_cons, h] using hnd)).2
      have htlt : ∀ u ∈ t.filterMap (·.downloadUrl), u < c := by
        intro u hu
        apply hlt
        rcases h : fc.downloadUrl with _ | v
        · simpa [List.filterMap_cons, h] using hu
        · simp only [List.filterMap_cons, h, List.mem_cons]
          exact Or.inr hu
      obtain ⟨ihnd, ihmem⟩ := ih hids' htnd htlt
      constructor
      · rcases hg : (g fc).downloadUrl with _ | u
        · simpa [List.filterMap_cons, hg] using ihnd
        · have hform : ((fc :: t).map g).filterMap (·.downloadUrl) =
              u :: (t.map g).filterMap (·.downloadUrl) := by
            simp [List.filterMap_cons, hg]
          rw [hform]
          refine List.nodup_cons.mpr ⟨?_, ihnd⟩
          intro hu
          rcases ihmem u hu with hmem | ⟨hrfl, hf⟩
          · rcases hurl fc with hsame | ⟨hc, hfcf⟩
            · have hfc : fc.downloadUrl = some u := by rw [← hsame, hg]
              have hndc := hnd
              rw [show (fc :: t).filterMap (·.downloadUrl) =
                u :: t.filterMap (·.downloadUrl) from by
                  simp [List.filterMap_cons, hfc]] at hndc
              exact (List.nodup_cons.mp hndc).1 hmem
            · rw [hg] at hc
              have huc : u = c := Option.some_inj.mp hc
              subst huc
              exact absurd (htlt u hmem) (lt_irrefl u)
          · rcases hurl fc with hsame | ⟨hc, hfcf⟩
            · have hfc : fc.downloadUrl = some c := by rw [← hsame, hg, hrfl]
              have hcin : c ∈ (fc :: t).filterMap (·.downloadUrl) := by
                simp [List.filterMap_cons, hfc]
              exact absurd (hlt c hcin) (lt_irrefl c)
            · exact hfcnot (hfcf ▸ hf)
      · intro u hu
        rcases hg : (g fc).downloadUrl with _ | v
        · have hu' : u ∈ (t.map g).filterMap (·.downloadUrl) := by
            simpa [List.filterMap_cons, hg] using hu
          rcases ihmem u hu' with hm | ⟨h1, h2⟩
          · left
            rcases h : fc.downloadUrl with _ | w <;>
              simp only [List.filterMap_cons, h, List.mem_cons]
            · exact hm
            · exact Or.inr hm
          · exact Or.inr ⟨h1, by simp only [List.map_cons, List.mem_cons]; exact Or.inr h2⟩
        · have hu' : u = v ∨ u ∈ (t.map g).filterMap (·.downloadUrl) := by
            have : u ∈ v :: (t.map g).filterMap (·.downloadUrl) := by
              simpa [List.filterMap_cons, hg] using hu
            simpa using this
          rcases hu' with hv | htail
          · subst hv
            rcases hurl fc with hsame | ⟨hc, hfcf⟩
            · left
              have hfc : fc.downloadUrl = some u := by rw [← hsame, hg]
              simp [List.filterMap_cons, hfc]
            · rw [hg] at hc
              have huc : u = c := Option.some_inj.mp hc
              exact Or.inr ⟨huc, by
                simp only [List.map_cons, List.mem_cons]
                exact Or.inl hfcf.symm⟩
          · rcases ihmem u htail with hm | ⟨h1, h2⟩
            · left
              rcases h : fc.downloadUrl with _ | w <;>
                simp only [List.filterMap_cons, h, List.mem_cons]
              · exact hm
              · exact Or.inr hm
            · exact Or.inr ⟨h1, by
                simp only [List.map_cons, List.mem_cons]
                exact Or.inr h2⟩

end Converter

namespace Converter

theorem convertVideo_urlInv (fmt : String) (snap : List FileConversion)
    (job : FileConversion) (r : ConvRun) (s : ConverterState)
    (hn : (jobIds s).Nodup) (hinv : UrlInv s) :
    UrlInv (convertVideo fmt snap job r s) := by
  obtain ⟨hnd, hmem, hrev⟩ := hinv
  have hrevoked := convertVideo_revoked fmt snap job r s
  have hfiles := convertVideo_uploadedFiles fmt snap job r s
  have hcnt := convertVideo_urlCounter fmt snap job r s
  by_cases hflag : ((s.ffmpegLoaded || r.loadOk) && r.writeOk && r.execOk
      && r.readOk) = true
  · rw [if_pos hflag] at hcnt
    have hurl : ∀ fc, (videoUpd s.ffmpegLoaded r job.file s.urlCounter fc).downloadUrl
        = fc.downloadUrl ∨
        ((videoUpd s.ffmpegLoaded r job.file s.urlCounter fc).downloadUrl =
          some s.urlCounter ∧ fc.file = job.file) := by
      intro fc
      by_cases h : (videoUpd s.ffmpegLoaded r job.file s.urlCounter fc).downloadUrl
          = fc.downloadUrl
      · exact Or.inl h
      · have := videoUpd_url_new s.ffmpegLoaded r job.file s.urlCounter fc h
        exact Or.inr ⟨this.1, this.2.1⟩
    have hupd := filterMap_update_nodup s.uploadedFiles
      (videoUpd s.ffmpegLoaded r job.file s.urlCounter) job.file s.urlCounter
      hurl hn hnd (fun u hu => (hmem u hu).1)
    refine ⟨?_, ?_, ?_⟩
    · rw [heldUrls, hfiles]
      exact hupd.1
    · intro u hu
      rw [heldUrls, hfiles] at hu
      rcases hupd.2 u hu with hold | ⟨hc, _⟩
      · obtain ⟨h1, h2⟩ := hmem u hold
        rw [hcnt, hrevoked]
        exact ⟨by omega, h2⟩
      · subst hc
        rw [hcnt, hrevoked]
        refine ⟨by omega, ?_⟩
        intro hin
        exact absurd (hrev _ hin) (lt_irrefl _)
    · intro u hu
      rw [hrevoked] at hu
      rw [hcnt]
      have := hrev u hu
      omega
  · rw [if_neg hflag] at hcnt
    have hsame : ∀ fc, (videoUpd s.ffmpegLoaded r job.file s.urlCounter fc).downloadUrl
        = fc.downloadUrl := by
      intro fc
      by_contra h
      exact hflag (videoUpd_url_new s.ffmpegLoaded r job.file s.urlCounter fc h).2.2
    have hheld : heldUrls (convertVideo fmt snap job r s) = heldUrls s := by
      rw [heldUrls, hfiles, List.filterMap_map]
      exact List.filterMap_congr fun fc _ => hsame fc
    rw [UrlInv, hheld, hrevoked, hcnt]
    exact ⟨hnd, hmem, hrev⟩

theorem processJobs_urlInv (fmt : String) (snap : List FileConversion)
    (pairs : List (FileConversion × ConvRun)) (s : ConverterState)
    (hn : (jobIds s).Nodup) (hinv : UrlInv s) :
    UrlInv (processJobs fmt snap pairs s) := by
  induction pairs generalizing s with
  | nil => exact hinv
  | cons q rest ih =>
      exact ih (convertVideo fmt snap q.1 q.2 s)
        (by rw [convertVideo_jobIds]; exact hn)
        (convertVideo_urlInv fmt snap q.1 q.2 s hn hinv)

theorem heldUrls_append_new (s : ConverterState) (files : List (Nat × String)) :
    heldUrls { s with uploadedFiles := s.uploadedFiles ++ newJobsOf s files } =
      heldUrls s := by
  show (s.uploadedFiles ++ newJobsOf s files).filterMap (·.downloadUrl) = _
  rw [List.filterMap_append]
  have hnil : (newJobsOf s files).filterMap (·.downloadUrl) = [] := by
    rw [List.filterMap_eq_nil_iff]
    intro j hj
    obtain ⟨p, _, hpe⟩ := List.mem_map.mp hj
    rw [← hpe]
    rfl
  rw [hnil, List.append_nil]
  rfl

/-- The URL invariant (and distinctness of job identities) holds in every
state reached by a wf trace. -/
theorem urlInv_foldl (acts : List Action) (s : ConverterState) (used : List Nat)
    (hwf : WfOver s used acts) (hn : (jobIds s).Nodup) (hinv : UrlInv s)
    (hcov : ∀ f ∈ jobIds s, f ∈ used) :
    (jobIds (acts.foldl step s)).Nodup ∧ UrlInv (acts.foldl step s) := by
  induction acts generalizing s used with
  | nil => exact ⟨hn, hinv⟩
  | cons a rest ih =>
      have hstep : (jobIds (step s a)).Nodup ∧ UrlInv (step s a) := by
        cases a with
        | drop files runs =>
            by_cases hb : uiBusy s = true
            · simpa [step, hb] using ⟨hn, hinv⟩
            · have hb2 : uiBusy s = false := by revert hb; cases uiBusy s <;> simp
              simp only [step, hb2, Bool.false_eq_true, if_false]
              have hfresh : ∀ f ∈ files.map Prod.fst, f ∉ jobIds s := by
                intro f hf hfs
                exact hwf.1.2 f hf (hcov f hfs)
              have hn1 := appended_nodup_ids s files hn hwf.1.1 hfresh
              have hinv1 : UrlInv { s with
                  uploadedFiles := s.uploadedFiles ++ newJobsOf s files } := by
                rw [UrlInv, heldUrls_append_new]
                exact ⟨hinv.1, hinv.2.1, hinv.2.2⟩
              constructor
              · rw [onDrop_jobIds]
                simpa [jobIds, List.map_append] using hn1
              · rw [onDrop_eq]
                exact processJobs_urlInv _ _ _ _ hn1 hinv1
        | selectFormat fmt =>
            by_cases hb : uiBusy s = true
            · simpa [step, hb] using ⟨hn, hinv⟩
            · have hb2 : uiBusy s = false := by revert hb; cases uiBusy s <;> simp
              refine ⟨by simpa [step, hb2, jobIds] using hn, ?_⟩
              simp only [step, hb2, Bool.false_eq_true, if_false]
              rw [UrlInv]
              exact ⟨hinv.1, hinv.2.1, hinv.2.2⟩
        | reset =>
            refine ⟨by simp [step, resetConverter, jobIds], ?_⟩
            show UrlInv (resetConverter s)
            refine ⟨by simp [heldUrls, resetConverter], ?_, ?_⟩
            · simp [heldUrls, resetConverter]
            · intro u hu
              show u < s.urlCounter
              rcases List.mem_append.mp hu with hu | hu
              · exact hinv.2.2 u hu
              · exact (hinv.2.1 u hu).1
      have hcov1 : ∀ f ∈ jobIds (step s a), f ∈ used ++ actIds a := by
        intro f hf
        rcases jobIds_step_cov s a hf with h | h
        · exact List.mem_append.mpr (Or.inl (hcov f h))
        · exact List.mem_append.mpr (Or.inr h)
      exact ih (step s a) (used ++ actIds a) hwf.2 hstep.1 hstep.2 hcov1

end Converter

namespace Converter

/-- C9: `resetConverter` revokes every result-artifact URL still held,
each exactly once (its count in the revocation log rises from 0 to 1),
empties the job list and returns the aggregate phase to `Idle`, while the
engine handle is left untouched: the loaded flag and the load counter are
unchanged, and a subsequent drop in the same session reuses the engine
without any re-initialisation (the load counter never moves again). -/
theorem C9_reset_releases_once_and_keeps_engine (acts : List Action)
    (hwf : Wf acts) :
    (resetConverter (execTrace acts)).uploadedFiles = [] ∧
    (resetConverter (execTrace acts)).conversionState.phase = .idle ∧
    (resetConverter (execTrace acts)).revoked =
      (execTrace acts).revoked ++ heldUrls (execTrace acts) ∧
    (∀ u ∈ heldUrls (execTrace acts),
      (execTrace acts).revoked.count u = 0 ∧
      (resetConverter (execTrace acts)).revoked.count u = 1) ∧
    (resetConverter (execTrace acts)).ffmpegLoaded = (execTrace acts).ffmpegLoaded ∧
    (resetConverter (execTrace acts)).engineLoadCount =
      (execTrace acts).engineLoadCount ∧
    ((execTrace acts).ffmpegLoaded = true → ∀ files runs,
      (step (resetConverter (execTrace acts)) (.drop files runs)).ffmpegLoaded
        = true ∧
      (step (resetConverter (execTrace acts)) (.drop files runs)).engineLoadCount =
        (execTrace acts).engineLoadCount) := by
  obtain ⟨hn, hinv⟩ := urlInv_foldl acts initState [] hwf
    (by simp [jobIds, initState])
    (by refine ⟨by simp [heldUrls, initState], ?_, ?_⟩ <;> simp [heldUrls, initState])
    (by simp [jobIds, initState])
  refine ⟨rfl, rfl, rfl, ?_, rfl, rfl, ?_⟩
  · intro u hu
    have hz : (execTrace acts).revoked.count u = 0 :=
      List.count_eq_zero.mpr (hinv.2.1 u hu).2
    refine ⟨hz, ?_⟩
    show ((execTrace acts).revoked ++ heldUrls (execTrace acts)).count u = 1
    have h1 : (heldUrls (execTrace acts)).count u = 1 :=
      List.count_eq_one_of_mem hinv.1 hu
    rw [List.count_append, hz, h1]
  · intro hload files runs
    have hbusy : uiBusy (resetConverter (execTrace acts)) = false := rfl
    have hstep : step (resetConverter (execTrace acts)) (.drop files runs) =
        onDrop files runs (resetConverter (execTrace acts)) := by
      simp [step, hbusy]
    have hload2 : ({ resetConverter (execTrace acts) with
        uploadedFiles := (resetConverter (execTrace acts)).uploadedFiles ++
          newJobsOf (resetConverter (execTrace acts)) files } :
        ConverterState).ffmpegLoaded = true := hload
    constructor
    · rw [hstep, onDrop_eq]
      exact processJobs_ffmpegLoaded_mono _ _ _ _ hload2
    · rw [hstep, onDrop_eq, processJobs_engineLoadCount_loaded _ _ _ _ hload2]
      rfl

/-- Concrete instantiation of C9: after one completed job, a reset revokes
its URL exactly once and a later drop reuses the loaded engine without a
second load. -/
theorem C9_reset_witness :
    Wf [Action.drop [(1, "a.mkv")] [okRun]] ∧
    ((resetConverter (execTrace [Action.drop [(1, "a.mkv")] [okRun]])).uploadedFiles
        = [] ∧
      (resetConverter (execTrace
        [Action.drop [(1, "a.mkv")] [okRun]])).conversionState.phase = .idle ∧
      (resetConverter (execTrace [Action.drop [(1, "a.mkv")] [okRun]])).revoked =
        (execTrace [Action.drop [(1, "a.mkv")] [okRun]]).revoked ++
          heldUrls (execTrace [Action.drop [(1, "a.mkv")] [okRun]]) ∧
      (∀ u ∈ heldUrls (execTrace [Action.drop [(1, "a.mkv")] [okRun]]),
        (execTrace [Action.drop [(1, "a.mkv")] [okRun]]).revoked.count u = 0 ∧
        (resetConverter (execTrace
          [Action.drop [(1, "a.mkv")] [okRun]])).revoked.count u = 1) ∧
      (resetConverter (execTrace [Action.drop [(1, "a.mkv")] [okRun]])).ffmpegLoaded =
        (execTrace [Action.drop [(1, "a.mkv")] [okRun]]).ffmpegLoaded ∧
      (resetConverter (execTrace
          [Action.drop [(1, "a.mkv")] [okRun]])).engineLoadCount =
        (execTrace [Action.drop [(1, "a.mkv")] [okRun]]).engineLoadCount ∧
      ((execTrace [Action.drop [(1, "a.mkv")] [okRun]]).ffmpegLoaded = true →
        ∀ files runs,
        (step (resetConverter (execTrace [Action.drop [(1, "a.mkv")] [okRun]]))
          (.drop files runs)).ffmpegLoaded = true ∧
        (step (resetConverter (execTrace [Action.drop [(1, "a.mkv")] [okRun]]))
          (.drop files runs)).engineLoadCount =
          (execTrace [Action.drop [(1, "a.mkv")] [okRun]]).engineLoadCount)) ∧
    heldUrls (execTrace [Action.drop [(1, "a.mkv")] [okRun]]) = [0] ∧
    (execTrace [Action.drop [(1, "a.mkv")] [okRun]]).ffmpegLoaded = true ∧
    (execTrace [Action.drop [(1, "a.mkv")] [okRun]]).engineLoadCount = 1 :=
  ⟨by decide,
    C9_reset_releases_once_and_keeps_engine [Action.drop [(1, "a.mkv")] [okRun]]
      (by decide),
    by decide, by decide, by decide⟩

end Converter
